import Mathlib

/-!
Verification development for the VideoFastLabel coordination server
(`server.py`).  The `State` class of the server is embedded shallowly:
Python dicts become association lists, Python sets become duplicate-free
string lists, the labels file (`labels.jsonl`) becomes the in-memory
`ledger` field, wall-clock time becomes an explicit `now` argument, and
fallible file writes become an explicit `writeOk : Bool` argument.  Every
operation of the `State` class that touches the shared state is modelled;
static file serving, HTTP plumbing and reviewer authentication are out of
scope, matching the specification's stated scope.
-/

namespace VideoFastLabel

/-- Server configuration: `ASSIGNMENT_TTL_SEC` and `SINGLE_LABEL_PER_VIDEO`. -/
structure Config where
  ttl : Nat
  singleLabel : Bool
deriving DecidableEq, Repr

/-- One entry of `self.assigned`: `{"user": user, "ts": time.time()}`. -/
structure Lease where
  user : String
  ts : Nat
deriving DecidableEq, Repr

/-- One line of the labels ledger: the JSON payload `{id, user, label, ts}`. -/
structure LabelRecord where
  id : String
  user : String
  label : String
  ts : Nat
deriving DecidableEq, Repr

/-- The label-submission payload before the server stamps a timestamp. -/
structure Payload where
  id : String
  user : String
  label : String
deriving DecidableEq, Repr

/-- The shared mutable state of the server (`State.__init__`).  `videos` is
the last catalog scan; re-scanning is modelled as the identity because the
backing directory is fixed during a run of the model. -/
structure State where
  videos : List String
  assigned : List (String × Lease)
  labeled_ids : List String
  per_user_counts : List (String × Nat)
  active_users : List String
  owner_map : List (String × String)
  balance_sig : Option (List String × Nat × Nat)
  last_undo : List (String × List LabelRecord)
  ledger : List LabelRecord
deriving DecidableEq, Repr

/-! ### Dictionary and set helpers (Python dict / set semantics) -/

/-- Lookup in an association list (Python `d.get(k)`). -/
def alookup {α : Type} : List (String × α) → String → Option α
  | [], _ => none
  | p :: rest, k => if p.1 = k then some p.2 else alookup rest k

/-- Store a binding (Python `d[k] = v`): replace the existing binding in
place, or append a new one at the end. -/
def alset {α : Type} : List (String × α) → String → α → List (String × α)
  | [], k, v => [(k, v)]
  | p :: rest, k, v => if p.1 = k then (k, v) :: rest else p :: alset rest k v

/-- Delete a key (Python `del d[k]` / absence after `discard`). -/
def alerase {α : Type} (l : List (String × α)) (k : String) : List (String × α) :=
  l.filter (fun p => p.1 ≠ k)

/-- Counter read with default 0 (Python `d.get(k, 0)`). -/
def cget (l : List (String × Nat)) (k : String) : Nat :=
  (alookup l k).getD 0

/-- Membership in a list of strings, as a boolean (Python `x in s`). -/
def smem (x : String) : List String → Bool
  | [] => false
  | y :: ys => x = y || smem x ys

/-- Membership in a list of naturals, as a boolean (Python `i in positions`). -/
def nmem (x : Nat) : List Nat → Bool
  | [] => false
  | y :: ys => x = y || nmem x ys

/-- Python `set.add`: insert if absent. -/
def sinsert (l : List String) (x : String) : List String :=
  if smem x l then l else l ++ [x]

/-- Python `set.discard`: remove every occurrence. -/
def sremove (l : List String) (x : String) : List String :=
  l.filter (fun y => y ≠ x)

/-- Lexicographic strict order on code-point sequences, the order Python
uses to compare strings. -/
def lexLt : List Char → List Char → Bool
  | [], [] => false
  | [], _ :: _ => true
  | _ :: _, [] => false
  | c :: cs, d :: ds =>
    if c.toNat < d.toNat then true
    else if d.toNat < c.toNat then false
    else lexLt cs ds

/-- Strict order on strings by code points. -/
def strLt (a b : String) : Bool :=
  lexLt a.data b.data

/-- Insert into a sorted duplicate-free list of strings. -/
def insSorted (x : String) : List String → List String
  | [] => [x]
  | y :: ys => if x = y then y :: ys else if strLt x y then x :: y :: ys else y :: insSorted x ys

/-- Python `sorted(set(l))`: the sorted duplicate-free enumeration. -/
def sortedDedup (l : List String) : List String :=
  l.foldr insSorted []

/-! ### Lease manager -/

/-- `State._prune_assignments`: drop every lease with `now - ts > TTL`. -/
def pruneAssignments (cfg : Config) (now : Nat) (s : State) : State :=
  { s with assigned := s.assigned.filter (fun p => ¬ (p.2.ts + cfg.ttl < now)) }

/-- The filter of `State._eligible_videos` (after pruning): not leased and,
in single-label mode, not already labeled. -/
def eligibleList (cfg : Config) (s : State) : List String :=
  s.videos.filter (fun v =>
    (alookup s.assigned v).isNone && !(cfg.singleLabel && smem v s.labeled_ids))

/-! ### Fair-share balancer -/

/-- `sorted(self.active_users | set(self.per_user_counts.keys()))`. -/
def participantsOf (s : State) : List String :=
  sortedDedup (s.active_users ++ s.per_user_counts.map Prod.fst)

/-- The balancer staleness signature `(participants, len(videos), len(labeled_ids))`. -/
def curSig (s : State) : List String × Nat × Nat :=
  (participantsOf s, s.videos.length, s.labeled_ids.length)

/-- The unlabeled videos in catalog scan order. -/
def unlabeledOf (s : State) : List String :=
  s.videos.filter (fun v => !smem v s.labeled_ids)

/-- Unlabeled videos missing from the ownership map (`missing` in
`_rebalance_if_needed`). -/
def missingList (s : State) : List String :=
  s.videos.filter (fun v => !smem v s.labeled_ids && !(alookup s.owner_map v).isSome)

/-- The `targets` dict: the i-th participant (0-indexed, sorted order) gets
`base + 1` when `i < rem` else `base`. -/
def buildTargets (participants : List String) (total : Nat) : List (String × Nat) :=
  participants.enum.map (fun iu =>
    (iu.2, total / participants.length + (if iu.1 < total % participants.length then 1 else 0)))

/-- The `need` dict: `max(0, target - already_labeled_count)` per participant
(natural subtraction is the clamped difference). -/
def buildNeed (participants : List String) (targets : List (String × Nat))
    (counts : List (String × Nat)) : List (String × Nat) :=
  participants.map (fun u => (u, (alookup targets u).getD 0 - cget counts u))

/-- The round-robin queue: each participant repeated `need.get(u, 0)` times,
in sorted participant order. -/
def buildQueueFromNeed (participants : List String) (need : List (String × Nat)) :
    List String :=
  participants.flatMap (fun u => List.replicate ((alookup need u).getD 0) u)

/-- The assignment loop of `_rebalance_if_needed`: walk the unlabeled videos
carrying the queue cursor `qi`, stepping it by `(qi + 1) % len(queue)`. -/
def assignOwnersAux (queue : List String) : List String → Nat → List (String × String)
  | [], _ => []
  | v :: vs, qi => (v, queue.getD qi "") :: assignOwnersAux queue vs ((qi + 1) % queue.length)

/-- Ownership map produced by the assignment loop, cursor starting at 0. -/
def assignOwners (queue unlabeled : List String) : List (String × String) :=
  assignOwnersAux queue unlabeled 0

/-- The recompute branch of `_rebalance_if_needed`: store the fresh
signature, clear the ownership map, and rebuild it unless one of the early
returns fires.  The fields written first (signature, ownership map) are
never read afterwards, so the remaining reads use the incoming state. -/
def recomputeBalance (s : State) : State :=
  let parts := participantsOf s
  let s1 := { s with balance_sig := some (curSig s), owner_map := [] }
  if parts = [] then s1
  else
    let targets := buildTargets parts s.videos.length
    let need := buildNeed parts targets s.per_user_counts
    let unlabeled := unlabeledOf s
    if unlabeled = [] then s1
    else
      let queue := buildQueueFromNeed parts need
      if queue = [] then s1
      else { s1 with owner_map := assignOwners queue unlabeled }

/-- `State._rebalance_if_needed`: skip when the signature matches and every
unlabeled video already has an owner; otherwise recompute. -/
def rebalance (s : State) : State :=
  match s.balance_sig with
  | some σ => if σ = curSig s ∧ missingList s = [] then s else recomputeBalance s
  | none => recomputeBalance s

/-! ### Allocation operations -/

/-- `State.assign_next`: register the requester, rebalance, prune, pick the
first eligible video owned by the requester, and lease it. -/
def assignNext (cfg : Config) (now : Nat) (s : State) (user : String) :
    State × Option String :=
  let s := { s with active_users := sinsert s.active_users user }
  let s := rebalance s
  let s := pruneAssignments cfg now s
  match (eligibleList cfg s).find? (fun v => alookup s.owner_map v == some user) with
  | none => (s, none)
  | some v =>
    if v = "" then (s, none)
    else ({ s with assigned := alset s.assigned v ⟨user, now⟩ }, some v)

/-- `State.peek_next`: first eligible video globally, no lease taken. -/
def peekNext (cfg : Config) (now : Nat) (s : State) : State × Option String :=
  let s := pruneAssignments cfg now s
  (s, (eligibleList cfg s).head?)

/-- `State.peek_next_for_user`: like `assign_next` but without leasing. -/
def peekNextForUser (cfg : Config) (now : Nat) (s : State) (user : String) :
    State × Option String :=
  let s := { s with active_users := sinsert s.active_users user }
  let s := rebalance s
  let s := pruneAssignments cfg now s
  (s, (eligibleList cfg s).find? (fun v => alookup s.owner_map v == some user))

/-- `State.release`: clear the lease when present and, if a user is given,
only when it matches the holder. -/
def release (s : State) (vid : String) (user : Option String) : State :=
  match alookup s.assigned vid with
  | some info =>
    if user = none ∨ user = some info.user then
      { s with assigned := alerase s.assigned vid }
    else s
  | none => s

/-! ### Ledger: append -/

/-- Outcome of `State.record_label`. -/
inductive RecResult
  | ok
  | invalid
  | conflict
  | writeFailed
deriving DecidableEq, Repr

/-- `State.record_label`: validate the payload, reject when the video is
leased to a different user, append one line to the ledger (the write may
fail), bump the submitter's counter, mark the video labeled, and release
any lease on it. -/
def recordLabel (s : State) (p : Payload) (nowMs : Nat) (writeOk : Bool) :
    State × RecResult :=
  if p.id = "" ∨ p.user = "" ∨ (p.label ≠ "ok" ∧ p.label ≠ "not_ok") then (s, .invalid)
  else
    let proceed : State × RecResult :=
      if ¬ writeOk then (s, .writeFailed)
      else
        ({ s with ledger := s.ledger ++ [⟨p.id, p.user, p.label, nowMs⟩],
                  per_user_counts :=
                    alset s.per_user_counts p.user (cget s.per_user_counts p.user + 1),
                  labeled_ids := sinsert s.labeled_ids p.id,
                  assigned := alerase s.assigned p.id }, .ok)
    match alookup s.assigned p.id with
    | some info => if info.user ≠ p.user then (s, .conflict) else proceed
    | none => proceed

/-! ### Ledger: targeted removal -/

/-- Outcome of `State.remove_label`.  `ok` and `notFound` are successes
(HTTP 200); the other two are failures. -/
inductive RemResult
  | ok
  | notFound
  | invalidParams
  | writeFailed
deriving DecidableEq, Repr

/-- Whether a `remove_label` outcome is reported as a success. -/
def remSuccess : RemResult → Bool
  | .ok => true
  | .notFound => true
  | _ => false

/-- The scan loop of `remove_label`: drop the first record matching both
fields, keep everything else in order; also report how many were dropped. -/
def removeFirst (user vid : String) : List LabelRecord → List LabelRecord × Nat
  | [] => ([], 0)
  | r :: rest =>
    if r.user = user ∧ r.id = vid then (rest, 1)
    else
      let p := removeFirst user vid rest
      (r :: p.1, p.2)

/-- `State.remove_label`: validate, scan for the earliest matching record,
rewrite the ledger without it (the rewrite may fail), then update the
in-memory counters and invalidate the balancer signature. -/
def removeLabel (s : State) (user vid : String) (writeOk : Bool) :
    State × RemResult :=
  if user = "" ∨ vid = "" then (s, .invalidParams)
  else
    let p := removeFirst user vid s.ledger
    if p.2 = 0 then (s, .notFound)
    else if ¬ writeOk then (s, .writeFailed)
    else
      ({ s with ledger := p.1,
                per_user_counts :=
                  alset s.per_user_counts user (cget s.per_user_counts user - 1),
                labeled_ids := sremove s.labeled_ids vid,
                balance_sig := none }, .ok)

/-! ### Ledger: batched undo -/

/-- Outcome of `State.undo_last`.  `ok` and `nothingToUndo` are successes. -/
inductive UndoResult
  | ok
  | nothingToUndo
  | invalidParams
  | writeFailed
deriving DecidableEq, Repr

/-- The `idx_user` list of `undo_last`: positions (from counter `i`) of the
ledger records authored by `user`. -/
def idxUserFrom (user : String) (i : Nat) : List LabelRecord → List Nat
  | [] => []
  | r :: rest =>
    if r.user = user then i :: idxUserFrom user (i + 1) rest
    else idxUserFrom user (i + 1) rest

/-- Positions of the records authored by `user`, counted from 0. -/
def idxUser (user : String) (l : List LabelRecord) : List Nat :=
  idxUserFrom user 0 l

/-- `pos_batch = idx_user[-k:]` with `k = min(count, len(idx_user))`. -/
def undoPos (user : String) (l : List LabelRecord) (count : Nat) : List Nat :=
  let idx := idxUser user l
  idx.drop (idx.length - min count idx.length)

/-- The partition loop of `undo_last`: walk the rows with their position
counter; rows at a position in `pos` become the undone batch (first
component), the rest stay (second component), both in original order. -/
def splitRows (pos : List Nat) (i : Nat) : List LabelRecord → List LabelRecord × List LabelRecord
  | [] => ([], [])
  | r :: rest =>
    let p := splitRows pos (i + 1) rest
    if nmem i pos then (r :: p.1, p.2) else (p.1, r :: p.2)

/-- The (undone batch, kept rows) pair computed by `undo_last`. -/
def undoSplit (user : String) (l : List LabelRecord) (count : Nat) :
    List LabelRecord × List LabelRecord :=
  splitRows (undoPos user l count) 0 l

/-- `undone_ids`: ids of the undone records, skipping falsy (empty) ids. -/
def undoneIdsOf (batch : List LabelRecord) : List String :=
  batch.filterMap (fun r => if r.id = "" then none else some r.id)

/-- `State.undo_last`: validate, select the participant's last `count`
records, rewrite the ledger without them (the rewrite may fail), update the
in-memory stats when at least one id was undone, and stash the batch as the
participant's pending redo buffer. -/
def undoLast (s : State) (user : String) (count : Nat) (writeOk : Bool) :
    State × UndoResult × List String :=
  if user = "" ∨ count = 0 then (s, .invalidParams, [])
  else if idxUser user s.ledger = [] then (s, .nothingToUndo, [])
  else
    let batch := (undoSplit user s.ledger count).1
    let kept := (undoSplit user s.ledger count).2
    let ids := undoneIdsOf batch
    if ¬ writeOk then (s, .writeFailed, [])
    else if ids.length = 0 then ({ s with ledger := kept }, .ok, ids)
    else
      ({ s with ledger := kept,
                per_user_counts :=
                  alset s.per_user_counts user (cget s.per_user_counts user - ids.length),
                labeled_ids := ids.foldl sremove s.labeled_ids,
                balance_sig := none,
                last_undo := alset s.last_undo user batch }, .ok, ids)

/-! ### Ledger: redo -/

/-- Outcome of `State.redo_last`. -/
inductive RedoResult
  | ok
  | nothingToRedo
  | invalidParams
deriving DecidableEq, Repr

/-- One iteration of the re-append loop of `redo_last`: skip a record whose
id is already labeled (single-label mode), otherwise append it, bump the
requester's counter and mark the id labeled when truthy. -/
def redoStep (cfg : Config) (user : String) (acc : State × Nat) (r : LabelRecord) :
    State × Nat :=
  let s := acc.1
  if cfg.singleLabel && smem r.id s.labeled_ids then acc
  else
    ({ s with ledger := s.ledger ++ [r],
              per_user_counts :=
                alset s.per_user_counts user (cget s.per_user_counts user + 1),
              labeled_ids := if r.id = "" then s.labeled_ids else sinsert s.labeled_ids r.id },
     acc.2 + 1)

/-- `State.redo_last`: re-append the pending buffer in order, clear it, and
invalidate the balancer signature. -/
def redoLast (cfg : Config) (s : State) (user : String) :
    State × RedoResult × Nat :=
  if user = "" then (s, .invalidParams, 0)
  else
    let batch := (alookup s.last_undo user).getD []
    if batch = [] then (s, .nothingToRedo, 0)
    else
      let p := batch.foldl (redoStep cfg user) (s, 0)
      ({ p.1 with last_undo := alset p.1.last_undo user [], balance_sig := none }, .ok, p.2)

/-! ### Stats and startup -/

/-- The `/api/stats` payload `(total, labeled, remaining)`. -/
def statsOf (cfg : Config) (s : State) : Nat × Nat × Nat :=
  (s.videos.length,
   if cfg.singleLabel then s.labeled_ids.length else (s.per_user_counts.map Prod.snd).sum,
   s.videos.length - s.labeled_ids.length)

/-- The state-changing part of `State.get_user_stats`: register the
requester and rebalance (the returned statistics are read-only). -/
def userStatsTouch (s : State) (user : String) : State :=
  if user = "" then s
  else rebalance { s with active_users := sinsert s.active_users user }

/-- `State.__init__` followed by `_load_existing_labels`: start from a
catalog and an on-disk ledger, rebuilding the labeled set and the
per-participant counters (skipping falsy ids and users). -/
def loadState (catalog : List String) (ledger : List LabelRecord) : State :=
  { videos := catalog
    assigned := []
    labeled_ids := ledger.foldl (fun l r => if r.id = "" then l else sinsert l r.id) []
    per_user_counts :=
      ledger.foldl (fun c r => if r.user = "" then c else alset c r.user (cget c r.user + 1)) []
    active_users := []
    owner_map := []
    balance_sig := none
    last_undo := []
    ledger := ledger }

/-! ### Reachability -/

/-- States reachable from server startup by any sequence of coordinator
operations, with arbitrary request times, payloads and write outcomes. -/
inductive Reachable (cfg : Config) (catalog : List String) : State → Prop
  | init (ledger : List LabelRecord) : Reachable cfg catalog (loadState catalog ledger)
  | assign (s : State) (now : Nat) (u : String) :
      Reachable cfg catalog s → Reachable cfg catalog (assignNext cfg now s u).1
  | peek (s : State) (now : Nat) :
      Reachable cfg catalog s → Reachable cfg catalog (peekNext cfg now s).1
  | peekUser (s : State) (now : Nat) (u : String) :
      Reachable cfg catalog s → Reachable cfg catalog (peekNextForUser cfg now s u).1
  | rel (s : State) (v : String) (u : Option String) :
      Reachable cfg catalog s → Reachable cfg catalog (release s v u)
  | record (s : State) (p : Payload) (now : Nat) (w : Bool) :
      Reachable cfg catalog s → Reachable cfg catalog (recordLabel s p now w).1
  | remove (s : State) (u v : String) (w : Bool) :
      Reachable cfg catalog s → Reachable cfg catalog (removeLabel s u v w).1
  | undo (s : State) (u : String) (c : Nat) (w : Bool) :
      Reachable cfg catalog s → Reachable cfg catalog (undoLast s u c w).1
  | redo (s : State) (u : String) :
      Reachable cfg catalog s → Reachable cfg catalog (redoLast cfg s u).1
  | stats (s : State) (u : String) :
      Reachable cfg catalog s → Reachable cfg catalog (userStatsTouch s u)

/-! ### Derived definitions used by the claims -/

/-- The scenario configuration: default TTL, single-label mode on. -/
def sc1cfg : Config := ⟨180, true⟩

/-- Three catalog items in lexicographic scan order, empty ledger. -/
def sc1s0 : State := loadState ["a", "b", "c"] []

/-- alice's first request, at time 1. -/
def sc1a1 : State × Option String := assignNext sc1cfg 1 sc1s0 "alice"

/-- alice submits ok for her item ("a"), at time 2. -/
def sc1r1 : State × RecResult := recordLabel sc1a1.1 ⟨"a", "alice", "ok"⟩ 2 true

/-- bob's request, at time 3. -/
def sc1a2 : State × Option String := assignNext sc1cfg 3 sc1r1.1 "bob"

/-- bob submits not_ok for his item (which is "c"), at time 4. -/
def sc1r2 : State × RecResult := recordLabel sc1a2.1 ⟨"c", "bob", "not_ok"⟩ 4 true

/-- alice's second request, at time 5. -/
def sc1a3 : State × Option String := assignNext sc1cfg 5 sc1r2.1 "alice"

/-- alice submits ok for her second item (which is "b"), at time 6. -/
def sc1r3 : State × RecResult := recordLabel sc1a3.1 ⟨"b", "alice", "ok"⟩ 6 true

/-- Recursive characterization of the undo partition: keep the first `K`
records of the participant (and everything by other participants), remove
the participant's remaining records.  First component: removed batch;
second: kept rows. -/
def keepFirstK (u : String) : Nat → List LabelRecord → List LabelRecord × List LabelRecord
  | _, [] => ([], [])
  | 0, r :: rest =>
    if r.user = u then ((keepFirstK u 0 rest).1.cons r, (keepFirstK u 0 rest).2)
    else ((keepFirstK u 0 rest).1, (keepFirstK u 0 rest).2.cons r)
  | K + 1, r :: rest =>
    if r.user = u then ((keepFirstK u K rest).1, (keepFirstK u K rest).2.cons r)
    else ((keepFirstK u (K + 1) rest).1, (keepFirstK u (K + 1) rest).2.cons r)

/-- The quota formula stated by the specification: `base + 1` for the first
`rem` participants (0-indexed, sorted order), `base` for the rest. -/
def specTarget (n total i : Nat) : Nat :=
  total / n + (if i < total % n then 1 else 0)

/-- The assignment queue the balancer builds for state `s`. -/
def specQueue (s : State) : List String :=
  buildQueueFromNeed (participantsOf s)
    (buildNeed (participantsOf s)
      (buildTargets (participantsOf s) s.videos.length) s.per_user_counts)

/-- Concrete state for exercising the balancer: three items, no labels yet,
two active participants. -/
def sW : State := { loadState ["a", "b", "c"] [] with active_users := ["alice", "bob"] }

/-- The ownership map mentions only currently-unlabeled items. -/
def ownerOK (s : State) : Prop :=
  ∀ p ∈ s.owner_map, p.1 ∉ s.labeled_ids

/-- The stored balancer signature's labeled-count component is at most the
current labeled count (labeled counts can only shrink through operations
that clear the signature). -/
def sigLe (s : State) : Prop :=
  ∀ σ, s.balance_sig = some σ → σ.2.2 ≤ s.labeled_ids.length

/-- The stored signature is strictly stale in its labeled-count component,
forcing the next rebalance to recompute. -/
def sigLt (s : State) : Prop :=
  ∀ σ, s.balance_sig = some σ → σ.2.2 < s.labeled_ids.length

/-- The reachable-state invariant: the signature never overcounts, and
either the ownership map is clean or the signature is stale. -/
def BalancerInv (s : State) : Prop :=
  sigLe s ∧ (ownerOK s ∨ sigLt s)

/-! ### Basic lemmas about the dictionary and set helpers -/

theorem smem_iff (x : String) (l : List String) : smem x l = true ↔ x ∈ l := by
  induction l with
  | nil => simp [smem]
  | cons y ys ih => simp [smem, Bool.or_eq_true, decide_eq_true_eq, ih, List.mem_cons]

theorem smem_eq_false (x : String) (l : List String) : smem x l = false ↔ x ∉ l := by
  rw [← smem_iff]
  cases smem x l <;> simp

theorem nmem_iff (x : Nat) (l : List Nat) : nmem x l = true ↔ x ∈ l := by
  induction l with
  | nil => simp [nmem]
  | cons y ys ih => simp [nmem, Bool.or_eq_true, decide_eq_true_eq, ih, List.mem_cons]

theorem alookup_alset_self {α : Type} (l : List (String × α)) (k : String) (v : α) :
    alookup (alset l k v) k = some v := by
  induction l with
  | nil => simp [alset, alookup]
  | cons p rest ih =>
    by_cases h : p.1 = k
    · simp [alset, alookup, h]
    · simp [alset, alookup, h, ih]

theorem cget_alset_self (l : List (String × Nat)) (k : String) (v : Nat) :
    cget (alset l k v) k = v := by
  simp [cget, alookup_alset_self]

theorem alookup_alerase_self {α : Type} (l : List (String × α)) (k : String) :
    alookup (alerase l k) k = none := by
  induction l with
  | nil => simp [alerase, alookup]
  | cons p rest ih =>
    by_cases h : p.1 = k
    · simpa [alerase, h] using ih
    · simpa [alerase, alookup, h] using ih

theorem alookup_eq_none_iff {α : Type} (l : List (String × α)) (k : String) :
    alookup l k = none ↔ ∀ p ∈ l, p.1 ≠ k := by
  induction l with
  | nil => simp [alookup]
  | cons p rest ih =>
    by_cases h : p.1 = k
    · simp [alookup, h]
    · simp [alookup, h, ih]

theorem sinsert_of_not_mem {l : List String} {x : String} (h : x ∉ l) :
    sinsert l x = l ++ [x] := by
  simp [sinsert, (smem_eq_false x l).2 h]

theorem sinsert_of_mem {l : List String} {x : String} (h : x ∈ l) :
    sinsert l x = l := by
  simp [sinsert, (smem_iff x l).2 h]

theorem mem_sremove_iff (l : List String) (x y : String) :
    y ∈ sremove l x ↔ y ∈ l ∧ y ≠ x := by
  simp [sremove, List.mem_filter]

theorem not_mem_sremove_self (l : List String) (x : String) : x ∉ sremove l x := by
  simp [mem_sremove_iff]

theorem removeFirst_of_no_match (u v : String) (l : List LabelRecord)
    (h : ∀ r ∈ l, ¬ (r.user = u ∧ r.id = v)) : removeFirst u v l = (l, 0) := by
  induction l with
  | nil => rfl
  | cons r rest ih =>
    have hr : ¬ (r.user = u ∧ r.id = v) := h r (List.mem_cons_self r rest)
    have hrest := ih (fun q hq => h q (List.mem_cons_of_mem r hq))
    simp [removeFirst, hr, hrest]

theorem removeFirst_append_match (u v : String) (pre : List LabelRecord)
    (r : LabelRecord) (post : List LabelRecord)
    (hpre : ∀ q ∈ pre, ¬ (q.user = u ∧ q.id = v)) (hr : r.user = u ∧ r.id = v) :
    removeFirst u v (pre ++ r :: post) = (pre ++ post, 1) := by
  induction pre with
  | nil => simp [removeFirst, hr]
  | cons q qs ih =>
    have hq : ¬ (q.user = u ∧ q.id = v) := hpre q (List.mem_cons_self q qs)
    have := ih (fun q' hq' => hpre q' (List.mem_cons_of_mem q hq'))
    simp [removeFirst, hq, this]

theorem not_mem_foldl_sremove_of_mem {ids : List String} {x : String} :
    ∀ l : List String, x ∈ ids → x ∉ ids.foldl sremove l := by
  induction ids with
  | nil => intro l h; cases h
  | cons i rest ih =>
    intro l h
    rcases List.mem_cons.1 h with h1 | h2
    · subst h1
      by_cases hr : x ∈ rest
      · exact ih (sremove l x) hr
      · have : ∀ m : List String, x ∉ m → x ∉ rest.foldl sremove m := by
          intro m hm
          clear ih h hr
          induction rest generalizing m with
          | nil => simpa [List.foldl] using hm
          | cons j js ihj =>
            simp only [List.foldl]
            exact ihj _ (fun hc => hm ((mem_sremove_iff m j x).1 hc).1)
        exact this (sremove l x) (not_mem_sremove_self l x)
    · exact ih (sremove l i) h2

/-! ### Claim C1: the two-participant three-item scenario -/

/-- C1, counterexample: in the claimed scenario bob's request does NOT return
item[1] ("b").  After alice labels item[0], the balancer computes needs
alice=1, bob=1, queue=[alice, bob], and assigns the unlabeled items "b" to
alice and "c" to bob, so bob's request returns item[2] ("c"). -/
theorem scenario_bob_gets_item2_not_item1 :
    sc1a2.2 ≠ some "b" ∧ sc1a2.2 = some "c" := by
  decide

/-- C1, amended: in single-label mode with catalog ["a", "b", "c"] and an
empty ledger, the claimed operation sequence gives alice item[0], gives bob
item[2] (not item[1]), gives alice item[1] (not item[2]); every submission
is accepted, and the final stats are total=3, labeled=3, remaining=0 with
per-participant counts alice=2 and bob=1, as the claim stated. -/
theorem scenario_three_items_actual :
    sc1a1.2 = some "a" ∧ sc1r1.2 = RecResult.ok ∧
    sc1a2.2 = some "c" ∧ sc1r2.2 = RecResult.ok ∧
    sc1a3.2 = some "b" ∧ sc1r3.2 = RecResult.ok ∧
    statsOf sc1cfg sc1r3.1 = (3, 3, 0) ∧
    cget sc1r3.1.per_user_counts "alice" = 2 ∧
    cget sc1r3.1.per_user_counts "bob" = 1 := by
  decide

/-! ### Claim C4: rewrite failure leaves everything unchanged -/

/-- C4: when the temporary-file write of a rewrite fails (`writeOk = false`),
both `remove_label` (on a pair that has a matching record) and `undo_last`
(for a participant with at least one record) return a failure result and
leave the entire state — the ledger file and every in-memory structure —
exactly as it was before the call. -/
theorem rewrite_failure_leaves_state_unchanged (s : State) (u v : String) (c : Nat)
    (hu : u ≠ "") (hv : v ≠ "") (hc : c ≠ 0)
    (hfound : (removeFirst u v s.ledger).2 ≠ 0)
    (hidx : idxUser u s.ledger ≠ []) :
    removeLabel s u v false = (s, RemResult.writeFailed) ∧
    undoLast s u c false = (s, UndoResult.writeFailed, []) := by
  constructor
  · simp [removeLabel, hu, hv, hfound]
  · simp [undoLast, hu, hc, hidx]

theorem rewrite_failure_leaves_state_unchanged_witness :
    let s : State := loadState ["a"] [⟨"a", "alice", "ok", 5⟩]
    removeLabel s "alice" "a" false = (s, RemResult.writeFailed) ∧
    undoLast s "alice" 1 false = (s, UndoResult.writeFailed, []) := by
  exact rewrite_failure_leaves_state_unchanged
    (loadState ["a"] [⟨"a", "alice", "ok", 5⟩]) "alice" "a" 1
    (by decide) (by decide) (by decide) (by decide) (by decide)

/-! ### Claim C5: removal of an absent pair -/

/-- C5, counterexample: the claim quantifies over every (participant, item)
pair with no matching record, but for the pair ("", "a") — no record in the
empty ledger matches it — `remove_label` reports "invalid params" as a
failure (an error outcome), not the non-fatal "not found". -/
theorem remove_label_empty_user_invalid :
    (removeLabel (loadState ["a"] []) "" "a" true).2 = RemResult.invalidParams ∧
    remSuccess RemResult.invalidParams = false ∧
    RemResult.invalidParams ≠ RemResult.notFound := by
  decide

/-- C5, amended: for every pair of a nonempty participant and a nonempty
item id with no matching record in the ledger, `remove_label` reports
"not found" as a success (non-error) outcome, performs no rewrite, and
leaves the whole state — ledger file and every in-memory structure —
unchanged. -/
theorem remove_label_not_found_no_mutation (s : State) (u v : String) (w : Bool)
    (hu : u ≠ "") (hv : v ≠ "")
    (habsent : ∀ r ∈ s.ledger, ¬ (r.user = u ∧ r.id = v)) :
    removeLabel s u v w = (s, RemResult.notFound) ∧
    remSuccess RemResult.notFound = true := by
  refine ⟨?_, rfl⟩
  simp [removeLabel, hu, hv, removeFirst_of_no_match u v s.ledger habsent]

theorem remove_label_not_found_no_mutation_witness :
    let s : State := loadState ["a"] [⟨"a", "alice", "ok", 5⟩]
    removeLabel s "bob" "a" true = (s, RemResult.notFound) ∧
    remSuccess RemResult.notFound = true := by
  exact remove_label_not_found_no_mutation
    (loadState ["a"] [⟨"a", "alice", "ok", 5⟩]) "bob" "a" true
    (by decide) (by decide) (by decide)

/-! ### Claim C6: removal of the earliest matching record -/

/-- C6: when the ledger is `pre ++ r :: post` with `r` the earliest record
matching (participant, item), `remove_label` rewrites the ledger to exactly
`pre ++ post` (every other record kept, in order), decrements the
participant's count (clamped at 0), removes the item from the labeled set,
and invalidates the balancer signature; no other field changes, and the
item is no longer in the labeled set afterwards. -/
theorem remove_label_removes_earliest_match (s : State) (u v : String)
    (pre post : List LabelRecord) (r : LabelRecord)
    (hu : u ≠ "") (hv : v ≠ "")
    (hsplit : s.ledger = pre ++ r :: post)
    (hr : r.user = u ∧ r.id = v)
    (hpre : ∀ q ∈ pre, ¬ (q.user = u ∧ q.id = v)) :
    removeLabel s u v true =
      ({ s with ledger := pre ++ post,
                per_user_counts :=
                  alset s.per_user_counts u (cget s.per_user_counts u - 1),
                labeled_ids := sremove s.labeled_ids v,
                balance_sig := none }, RemResult.ok) ∧
    v ∉ (removeLabel s u v true).1.labeled_ids := by
  have hrf : removeFirst u v s.ledger = (pre ++ post, 1) := by
    rw [hsplit]
    exact removeFirst_append_match u v pre r post hpre hr
  constructor
  · simp [removeLabel, hu, hv, hrf]
  · simp [removeLabel, hu, hv, hrf, not_mem_sremove_self]

theorem remove_label_removes_earliest_match_witness :
    let s : State := loadState ["a", "b"]
      [⟨"b", "bob", "ok", 1⟩, ⟨"a", "alice", "ok", 2⟩, ⟨"a", "alice", "ok", 3⟩]
    removeLabel s "alice" "a" true =
      ({ s with ledger := [⟨"b", "bob", "ok", 1⟩, ⟨"a", "alice", "ok", 3⟩],
                per_user_counts :=
                  alset s.per_user_counts "alice" (cget s.per_user_counts "alice" - 1),
                labeled_ids := sremove s.labeled_ids "a",
                balance_sig := none }, RemResult.ok) ∧
    "a" ∉ (removeLabel s "alice" "a" true).1.labeled_ids := by
  exact remove_label_removes_earliest_match
    (loadState ["a", "b"]
      [⟨"b", "bob", "ok", 1⟩, ⟨"a", "alice", "ok", 2⟩, ⟨"a", "alice", "ok", 3⟩])
    "alice" "a" [⟨"b", "bob", "ok", 1⟩] [⟨"a", "alice", "ok", 3⟩] ⟨"a", "alice", "ok", 2⟩
    (by decide) (by decide) (by decide) (by decide) (by decide)

/-! ### Claim C10: record_label never checks catalog membership -/

/-- C10: `record_label` accepts any payload with a nonempty id, a nonempty
user and a label in {ok, not_ok} whose id is not leased to a different
participant, even when the id names no item of the catalog: the record is
appended, the id enters the labeled set, the participant's count rises by
one and (when the id was not previously labeled) the global labeled count
rises by one. -/
theorem record_label_ignores_catalog (s : State) (p : Payload) (nowMs : Nat)
    (hid : p.id ≠ "") (hu : p.user ≠ "")
    (hl : p.label = "ok" ∨ p.label = "not_ok")
    (hcat : p.id ∉ s.videos)
    (hnl : p.id ∉ s.labeled_ids)
    (hlease : ∀ info, alookup s.assigned p.id = some info → info.user = p.user) :
    recordLabel s p nowMs true =
      ({ s with ledger := s.ledger ++ [⟨p.id, p.user, p.label, nowMs⟩],
                per_user_counts :=
                  alset s.per_user_counts p.user (cget s.per_user_counts p.user + 1),
                labeled_ids := s.labeled_ids ++ [p.id],
                assigned := alerase s.assigned p.id }, RecResult.ok) ∧
    p.id ∈ (recordLabel s p nowMs true).1.labeled_ids ∧
    cget (recordLabel s p nowMs true).1.per_user_counts p.user =
      cget s.per_user_counts p.user + 1 ∧
    (recordLabel s p nowMs true).1.labeled_ids.length = s.labeled_ids.length + 1 := by
  have hval : ¬ (p.id = "" ∨ p.user = "" ∨ (p.label ≠ "ok" ∧ p.label ≠ "not_ok")) := by
    push_neg
    refine ⟨hid, hu, ?_⟩
    intro hok
    rcases hl with h | h
    · exact absurd h hok
    · exact h
  have hmain : recordLabel s p nowMs true =
      ({ s with ledger := s.ledger ++ [⟨p.id, p.user, p.label, nowMs⟩],
                per_user_counts :=
                  alset s.per_user_counts p.user (cget s.per_user_counts p.user + 1),
                labeled_ids := s.labeled_ids ++ [p.id],
                assigned := alerase s.assigned p.id }, RecResult.ok) := by
    unfold recordLabel
    rw [if_neg hval]
    cases halo : alookup s.assigned p.id with
    | none => simp [halo, sinsert_of_not_mem hnl]
    | some info =>
      have : info.user = p.user := hlease info halo
      simp [halo, this, sinsert_of_not_mem hnl]
  refine ⟨hmain, ?_, ?_, ?_⟩
  · rw [hmain]
    simp
  · rw [hmain]
    simp [cget_alset_self]
  · rw [hmain]
    simp

theorem record_label_ignores_catalog_witness :
    let s : State := loadState ["a"] []
    recordLabel s ⟨"ghost", "alice", "ok"⟩ 7 true =
      ({ s with ledger := s.ledger ++ [⟨"ghost", "alice", "ok", 7⟩],
                per_user_counts :=
                  alset s.per_user_counts "alice" (cget s.per_user_counts "alice" + 1),
                labeled_ids := s.labeled_ids ++ ["ghost"],
                assigned := alerase s.assigned "ghost" }, RecResult.ok) ∧
    "ghost" ∈ (recordLabel (loadState ["a"] []) ⟨"ghost", "alice", "ok"⟩ 7 true).1.labeled_ids ∧
    cget (recordLabel (loadState ["a"] []) ⟨"ghost", "alice", "ok"⟩ 7 true).1.per_user_counts "alice" =
      cget (loadState ["a"] []).per_user_counts "alice" + 1 ∧
    (recordLabel (loadState ["a"] []) ⟨"ghost", "alice", "ok"⟩ 7 true).1.labeled_ids.length =
      (loadState ["a"] []).labeled_ids.length + 1 := by
  exact record_label_ignores_catalog (loadState ["a"] []) ⟨"ghost", "alice", "ok"⟩ 7
    (by decide) (by decide) (Or.inl rfl) (by decide) (by decide) (by decide)

/-! ### Claim C3: lease exclusivity and TTL expiry -/

theorem recordLabel_ok_of_unleased (s : State) (p : Payload) (t : Nat)
    (hid : p.id ≠ "") (hu : p.user ≠ "")
    (hl : p.label = "ok" ∨ p.label = "not_ok")
    (hfree : alookup s.assigned p.id = none) :
    (recordLabel s p t true).2 = RecResult.ok := by
  have hval : ¬ (p.id = "" ∨ p.user = "" ∨ (p.label ≠ "ok" ∧ p.label ≠ "not_ok")) := by
    push_neg
    refine ⟨hid, hu, ?_⟩
    intro hok
    rcases hl with h | h
    · exact absurd h hok
    · exact h
  unfold recordLabel
  rw [if_neg hval]
  simp [hfree]

theorem alookup_prune_none (cfg : Config) (now : Nat) (s : State)
    (X A : String) (tsl : Nat)
    (huniq : ∀ q ∈ s.assigned, q.1 = X → q.2 = ⟨A, tsl⟩)
    (hexp : tsl + cfg.ttl < now) :
    alookup (pruneAssignments cfg now s).assigned X = none := by
  rw [alookup_eq_none_iff]
  intro q hq
  simp only [pruneAssignments, List.mem_filter, decide_eq_true_eq] at hq
  intro hkey
  have := huniq q hq.1 hkey
  rw [this] at hq
  exact hq.2 hexp

/-- The state produced by `record_label` on a payload whose id is leased to
the submitter: the record is appended and the lease released. -/
theorem recordLabel_holder_submits (s : State) (X A lA : String) (t : Nat)
    (tsl : Nat)
    (hlook : alookup s.assigned X = some ⟨A, tsl⟩)
    (hX : X ≠ "") (hA : A ≠ "") (hlA : lA = "ok" ∨ lA = "not_ok") :
    recordLabel s ⟨X, A, lA⟩ t true =
      ({ s with ledger := s.ledger ++ [⟨X, A, lA, t⟩],
                per_user_counts :=
                  alset s.per_user_counts A (cget s.per_user_counts A + 1),
                labeled_ids := sinsert s.labeled_ids X,
                assigned := alerase s.assigned X }, RecResult.ok) := by
  have hval : ¬ ((Payload.mk X A lA).id = "" ∨ (Payload.mk X A lA).user = "" ∨
      ((Payload.mk X A lA).label ≠ "ok" ∧ (Payload.mk X A lA).label ≠ "not_ok")) := by
    push_neg
    refine ⟨hX, hA, ?_⟩
    intro hok
    rcases hlA with h | h
    · exact absurd h hok
    · exact h
  unfold recordLabel
  rw [if_neg hval]
  simp [hlook]

/-- C3, counterexample: the lease on "v" was acquired by alice at time 0
with TTL 180, yet a submission for "v" from bob carrying timestamp
1000000000 — far beyond any TTL — is still rejected as a conflict, because
`record_label` never prunes expired leases (pruning only happens inside
eligibility computations of other requests). -/
theorem expired_lease_blocks_other_submission :
    alookup (assignNext ⟨180, true⟩ 0 (loadState ["v"] []) "alice").1.assigned "v" =
      some ⟨"alice", 0⟩ ∧
    (recordLabel (assignNext ⟨180, true⟩ 0 (loadState ["v"] []) "alice").1
        ⟨"v", "bob", "ok"⟩ 1000000000 true).2 = RecResult.conflict := by
  decide

/-- C3, amended: while item X is leased to participant A, a valid
`record_label` submission for X by any B ≠ A is rejected as a conflict with
nothing written (the state is returned verbatim).  The rejection ceases
once A submits, A skips, or the lease is pruned — pruning happens during a
later eligibility computation once more than TTL seconds have elapsed since
acquisition, not inside `record_label` itself: after A's submission, after
A's skip, or after such a prune, a submission for X from B is accepted. -/
theorem lease_exclusivity_amended (cfg : Config) (s : State)
    (X A B lA lB : String) (tsl t t' now : Nat) (w : Bool)
    (hlook : alookup s.assigned X = some ⟨A, tsl⟩)
    (huniq : ∀ q ∈ s.assigned, q.1 = X → q.2 = ⟨A, tsl⟩)
    (hBA : B ≠ A) (hX : X ≠ "") (hA : A ≠ "") (hB : B ≠ "")
    (hlA : lA = "ok" ∨ lA = "not_ok") (hlB : lB = "ok" ∨ lB = "not_ok")
    (hexp : tsl + cfg.ttl < now) :
    recordLabel s ⟨X, B, lB⟩ t w = (s, RecResult.conflict) ∧
    (recordLabel (recordLabel s ⟨X, A, lA⟩ t true).1 ⟨X, B, lB⟩ t' true).2 =
      RecResult.ok ∧
    (recordLabel (release s X (some A)) ⟨X, B, lB⟩ t' true).2 = RecResult.ok ∧
    (recordLabel (pruneAssignments cfg now s) ⟨X, B, lB⟩ t' true).2 = RecResult.ok := by
  have hvalB : ¬ ((Payload.mk X B lB).id = "" ∨ (Payload.mk X B lB).user = "" ∨
      ((Payload.mk X B lB).label ≠ "ok" ∧ (Payload.mk X B lB).label ≠ "not_ok")) := by
    push_neg
    refine ⟨hX, hB, ?_⟩
    intro hok
    rcases hlB with h | h
    · exact absurd h hok
    · exact h
  refine ⟨?_, ?_, ?_, ?_⟩
  · unfold recordLabel
    rw [if_neg hvalB]
    simp [hlook, hBA, Ne.symm hBA]
  · rw [recordLabel_holder_submits s X A lA t tsl hlook hX hA hlA]
    exact recordLabel_ok_of_unleased _ _ _ hX hB hlB (alookup_alerase_self _ _)
  · have hrel : release s X (some A) = { s with assigned := alerase s.assigned X } := by
      unfold release
      rw [hlook]
      simp
    rw [hrel]
    exact recordLabel_ok_of_unleased _ _ _ hX hB hlB (alookup_alerase_self _ _)
  · exact recordLabel_ok_of_unleased _ _ _ hX hB hlB
      (alookup_prune_none cfg now s X A tsl huniq hexp)

theorem lease_exclusivity_amended_witness :
    recordLabel (assignNext ⟨180, true⟩ 0 (loadState ["v"] []) "alice").1
        ⟨"v", "bob", "ok"⟩ 1 true =
      ((assignNext ⟨180, true⟩ 0 (loadState ["v"] []) "alice").1, RecResult.conflict) ∧
    (recordLabel
        (recordLabel (assignNext ⟨180, true⟩ 0 (loadState ["v"] []) "alice").1
          ⟨"v", "alice", "ok"⟩ 1 true).1 ⟨"v", "bob", "ok"⟩ 2 true).2 = RecResult.ok ∧
    (recordLabel (release (assignNext ⟨180, true⟩ 0 (loadState ["v"] []) "alice").1
        "v" (some "alice")) ⟨"v", "bob", "ok"⟩ 2 true).2 = RecResult.ok ∧
    (recordLabel (pruneAssignments ⟨180, true⟩ 1000
        (assignNext ⟨180, true⟩ 0 (loadState ["v"] []) "alice").1)
        ⟨"v", "bob", "ok"⟩ 2 true).2 = RecResult.ok := by
  exact lease_exclusivity_amended ⟨180, true⟩
    (assignNext ⟨180, true⟩ 0 (loadState ["v"] []) "alice").1
    "v" "alice" "bob" "ok" "ok" 0 1 2 1000 true
    (by decide) (by decide) (by decide) (by decide) (by decide) (by decide)
    (Or.inl rfl) (Or.inl rfl) (by decide)

/-! ### The undo split: positional selection equals a recursive split -/

theorem keepFirstK_nil (u : String) (K : Nat) : keepFirstK u K [] = ([], []) := by
  cases K <;> rfl

theorem idxUserFrom_ge (u : String) :
    ∀ (l : List LabelRecord) (i : Nat), ∀ x ∈ idxUserFrom u i l, i ≤ x := by
  intro l
  induction l with
  | nil => intro i x hx; cases hx
  | cons r rest ih =>
    intro i x hx
    by_cases hr : r.user = u
    · simp only [idxUserFrom, if_pos hr] at hx
      rcases List.mem_cons.1 hx with h | h
      · omega
      · have := ih (i + 1) x h
        omega
    · simp only [idxUserFrom, if_neg hr] at hx
      have := ih (i + 1) x hx
      omega

theorem nmem_eq_false_of_lt (i : Nat) (pos : List Nat)
    (h : ∀ y ∈ pos, i < y) : nmem i pos = false := by
  cases hn : nmem i pos with
  | false => rfl
  | true =>
    have := (nmem_iff i pos).1 hn
    have := h i this
    omega

theorem splitRows_cons_lt (x : Nat) (pos : List Nat) :
    ∀ (l : List LabelRecord) (j : Nat), x < j →
      splitRows (x :: pos) j l = splitRows pos j l := by
  intro l
  induction l with
  | nil => intro j _; rfl
  | cons r rest ih =>
    intro j hj
    have hx : (j = x) = False := by
      apply eq_false
      omega
    simp only [splitRows, nmem, hx, decide_False, Bool.false_or]
    rw [ih (j + 1) (by omega)]

theorem splitRows_drop_idxUser (u : String) :
    ∀ (l : List LabelRecord) (i K : Nat),
      splitRows ((idxUserFrom u i l).drop K) i l = keepFirstK u K l := by
  intro l
  induction l with
  | nil => intro i K; rw [keepFirstK_nil]; cases K <;> rfl
  | cons r rest ih =>
    intro i K
    by_cases hr : r.user = u
    · have hidx : idxUserFrom u i (r :: rest) = i :: idxUserFrom u (i + 1) rest := by
        simp [idxUserFrom, hr]
      cases K with
      | zero =>
        rw [hidx, List.drop_zero]
        have hnm : nmem i (i :: idxUserFrom u (i + 1) rest) = true := by
          simp [nmem]
        simp only [splitRows, hnm, if_pos]
        rw [splitRows_cons_lt i _ rest (i + 1) (by omega)]
        have hdz : idxUserFrom u (i + 1) rest = (idxUserFrom u (i + 1) rest).drop 0 := by
          rw [List.drop_zero]
        rw [hdz, ih (i + 1) 0]
        simp [keepFirstK, hr]
      | succ K' =>
        rw [hidx, List.drop_succ_cons]
        have hnm : nmem i ((idxUserFrom u (i + 1) rest).drop K') = false := by
          apply nmem_eq_false_of_lt
          intro y hy
          have hy' : y ∈ idxUserFrom u (i + 1) rest := List.drop_subset _ _ hy
          have := idxUserFrom_ge u rest (i + 1) y hy'
          omega
        simp only [splitRows, hnm, Bool.false_eq_true, ite_false]
        rw [ih (i + 1) K']
        simp [keepFirstK, hr]
    · have hidx : idxUserFrom u i (r :: rest) = idxUserFrom u (i + 1) rest := by
        simp [idxUserFrom, hr]
      rw [hidx]
      have hnm : nmem i ((idxUserFrom u (i + 1) rest).drop K) = false := by
        apply nmem_eq_false_of_lt
        intro y hy
        have hy' : y ∈ idxUserFrom u (i + 1) rest := List.drop_subset _ _ hy
        have := idxUserFrom_ge u rest (i + 1) y hy'
        omega
      simp only [splitRows, hnm, Bool.false_eq_true, ite_false]
      cases K with
      | zero =>
        rw [ih (i + 1) 0]
        simp [keepFirstK, hr]
      | succ K' =>
        rw [ih (i + 1) (K' + 1)]
        simp [keepFirstK, hr]

theorem undoSplit_eq_keepFirstK (u : String) (l : List LabelRecord) (count : Nat) :
    undoSplit u l count =
      keepFirstK u ((idxUser u l).length - min count (idxUser u l).length) l := by
  unfold undoSplit undoPos idxUser
  exact splitRows_drop_idxUser u l 0 _

theorem keepFirstK_zero (u : String) :
    ∀ l : List LabelRecord,
      keepFirstK u 0 l =
        (l.filter (fun r => decide (r.user = u)),
         l.filter (fun r => !decide (r.user = u))) := by
  intro l
  induction l with
  | nil => rfl
  | cons r rest ih =>
    by_cases hr : r.user = u
    · simp [keepFirstK, hr, List.filter_cons, ih]
    · simp [keepFirstK, hr, List.filter_cons, ih]

theorem keepFirstK_perm (u : String) :
    ∀ (l : List LabelRecord) (K : Nat),
      List.Perm l ((keepFirstK u K l).2 ++ (keepFirstK u K l).1) := by
  intro l
  induction l with
  | nil =>
    intro K
    rw [keepFirstK_nil]
    exact List.Perm.refl _
  | cons r rest ih =>
    intro K
    by_cases hr : r.user = u
    · cases K with
      | zero =>
        simp only [keepFirstK, if_pos hr, List.cons]
        exact (List.Perm.cons r (ih 0)).trans List.perm_middle.symm
      | succ K' =>
        simp only [keepFirstK, if_pos hr, List.cons]
        exact List.Perm.cons r (ih K')
    · cases K with
      | zero =>
        simp only [keepFirstK, if_neg hr, List.cons]
        exact List.Perm.cons r (ih 0)
      | succ K' =>
        simp only [keepFirstK, if_neg hr, List.cons]
        exact List.Perm.cons r (ih (K' + 1))

theorem keepFirstK_fst_length (u : String) :
    ∀ (l : List LabelRecord) (K : Nat),
      (keepFirstK u K l).1.length =
        (l.filter (fun r => decide (r.user = u))).length - K := by
  intro l
  induction l with
  | nil =>
    intro K
    rw [keepFirstK_nil]
    simp
  | cons r rest ih =>
    intro K
    by_cases hr : r.user = u
    · cases K with
      | zero =>
        have := ih 0
        simp only [keepFirstK, if_pos hr, List.cons, List.length_cons,
          List.filter_cons, hr, decide_True, ite_true]
        omega
      | succ K' =>
        have := ih K'
        simp only [keepFirstK, if_pos hr, List.filter_cons, hr, decide_True,
          ite_true, List.length_cons]
        omega
    · cases K with
      | zero =>
        have := ih 0
        simp only [keepFirstK, if_neg hr, List.filter_cons, hr, decide_False]
        simpa using this
      | succ K' =>
        have := ih (K' + 1)
        simp only [keepFirstK, if_neg hr, List.filter_cons, hr, decide_False]
        simpa using this

theorem idxUserFrom_length (u : String) :
    ∀ (l : List LabelRecord) (i : Nat),
      (idxUserFrom u i l).length =
        (l.filter (fun r => decide (r.user = u))).length := by
  intro l
  induction l with
  | nil => intro i; rfl
  | cons r rest ih =>
    intro i
    by_cases hr : r.user = u
    · simp [idxUserFrom, hr, List.filter_cons, ih]
    · simp [idxUserFrom, hr, List.filter_cons, ih]

theorem keepFirstK_fst_mem (u : String) :
    ∀ (l : List LabelRecord) (K : Nat), ∀ r ∈ (keepFirstK u K l).1, r ∈ l := by
  intro l
  induction l with
  | nil =>
    intro K r hr
    rw [keepFirstK_nil] at hr
    cases hr
  | cons q rest ih =>
    intro K r hr
    by_cases hq : q.user = u
    · cases K with
      | zero =>
        simp only [keepFirstK, if_pos hq, List.cons, List.mem_cons] at hr
        rcases hr with h | h
        · exact List.mem_cons.2 (Or.inl h)
        · exact List.mem_cons.2 (Or.inr (ih 0 r h))
      | succ K' =>
        simp only [keepFirstK, if_pos hq] at hr
        exact List.mem_cons.2 (Or.inr (ih K' r hr))
    · cases K with
      | zero =>
        simp only [keepFirstK, if_neg hq] at hr
        exact List.mem_cons.2 (Or.inr (ih 0 r hr))
      | succ K' =>
        simp only [keepFirstK, if_neg hq] at hr
        exact List.mem_cons.2 (Or.inr (ih (K' + 1) r hr))

theorem undoneIdsOf_eq_map (batch : List LabelRecord)
    (h : ∀ r ∈ batch, r.id ≠ "") :
    undoneIdsOf batch = batch.map (fun r => r.id) := by
  induction batch with
  | nil => rfl
  | cons r rest ih =>
    have hr : r.id ≠ "" := h r (List.mem_cons_self r rest)
    have hrest := ih (fun q hq => h q (List.mem_cons_of_mem r hq))
    simp only [undoneIdsOf, List.filterMap_cons, hr, ite_false] at hrest ⊢
    rw [hrest, List.map_cons]

/-! ### Claim C9: undo with count exceeding the participant's records -/

/-- C9: when a participant has m ≥ 1 ledger records (all carrying item ids)
and `undo` is called with `count > m`, the call succeeds with the count
clamped to m: every record of the participant is removed (the rewritten
ledger is exactly the other participants' records in order), exactly the m
item ids are returned, the participant's counter drops by m, and the full
m-record batch becomes the participant's pending undo buffer. -/
theorem undo_count_clamped_to_all_user_records (s : State) (u : String) (count : Nat)
    (hu : u ≠ "")
    (hidx : idxUser u s.ledger ≠ [])
    (hc : (idxUser u s.ledger).length < count)
    (hids : ∀ r ∈ s.ledger, r.user = u → r.id ≠ "") :
    undoLast s u count true =
      ({ s with
          ledger := s.ledger.filter (fun r => !decide (r.user = u)),
          per_user_counts := alset s.per_user_counts u
            (cget s.per_user_counts u - (idxUser u s.ledger).length),
          labeled_ids :=
            ((s.ledger.filter (fun r => decide (r.user = u))).map (fun r => r.id)).foldl
              sremove s.labeled_ids,
          balance_sig := none,
          last_undo := alset s.last_undo u (s.ledger.filter (fun r => decide (r.user = u))) },
       UndoResult.ok,
       (s.ledger.filter (fun r => decide (r.user = u))).map (fun r => r.id)) ∧
    ((s.ledger.filter (fun r => decide (r.user = u))).map (fun r => r.id)).length =
      (idxUser u s.ledger).length := by
  have hK0 : (idxUser u s.ledger).length - min count (idxUser u s.ledger).length = 0 := by
    omega
  have hsplit : undoSplit u s.ledger count =
      (s.ledger.filter (fun r => decide (r.user = u)),
       s.ledger.filter (fun r => !decide (r.user = u))) := by
    rw [undoSplit_eq_keepFirstK, hK0, keepFirstK_zero]
  have hbids : ∀ r ∈ s.ledger.filter (fun r => decide (r.user = u)), r.id ≠ "" := by
    intro r hr
    have hm := List.mem_filter.1 hr
    exact hids r hm.1 (by simpa using hm.2)
  have hmap : undoneIdsOf (s.ledger.filter (fun r => decide (r.user = u))) =
      (s.ledger.filter (fun r => decide (r.user = u))).map (fun r => r.id) :=
    undoneIdsOf_eq_map _ hbids
  have hlen : ((s.ledger.filter (fun r => decide (r.user = u))).map (fun r => r.id)).length =
      (idxUser u s.ledger).length := by
    rw [List.length_map, idxUser, idxUserFrom_length]
  have hcount0 : count ≠ 0 := by omega
  have hmne : (idxUser u s.ledger).length ≠ 0 := by
    intro h
    exact hidx (List.length_eq_zero.1 h)
  refine ⟨?_, hlen⟩
  unfold undoLast
  rw [if_neg (by push_neg; exact ⟨hu, hcount0⟩), if_neg hidx]
  simp only [hsplit, hmap, hlen, not_true, Bool.not_true]
  rw [if_neg (by simp), if_neg hmne]

theorem undo_count_clamped_witness :
    undoLast (loadState ["a", "b"] [⟨"a", "alice", "ok", 1⟩, ⟨"b", "bob", "ok", 2⟩])
        "alice" 5 true =
      ({ loadState ["a", "b"] [⟨"a", "alice", "ok", 1⟩, ⟨"b", "bob", "ok", 2⟩] with
          ledger := [⟨"b", "bob", "ok", 2⟩],
          per_user_counts := alset (loadState ["a", "b"]
              [⟨"a", "alice", "ok", 1⟩, ⟨"b", "bob", "ok", 2⟩]).per_user_counts "alice"
            (cget (loadState ["a", "b"]
              [⟨"a", "alice", "ok", 1⟩, ⟨"b", "bob", "ok", 2⟩]).per_user_counts "alice" - 1),
          labeled_ids := ["a"].foldl sremove (loadState ["a", "b"]
              [⟨"a", "alice", "ok", 1⟩, ⟨"b", "bob", "ok", 2⟩]).labeled_ids,
          balance_sig := none,
          last_undo := alset (loadState ["a", "b"]
              [⟨"a", "alice", "ok", 1⟩, ⟨"b", "bob", "ok", 2⟩]).last_undo "alice"
            [⟨"a", "alice", "ok", 1⟩] },
       UndoResult.ok, ["a"]) := by
  have h := undo_count_clamped_to_all_user_records
    (loadState ["a", "b"] [⟨"a", "alice", "ok", 1⟩, ⟨"b", "bob", "ok", 2⟩])
    "alice" 5 (by decide) (by decide) (by decide) (by decide)
  exact h.1

/-! ### Claim C7: undo followed immediately by redo -/

theorem mem_sinsert_iff (l : List String) (x y : String) :
    y ∈ sinsert l x ↔ y ∈ l ∨ y = x := by
  unfold sinsert
  by_cases h : smem x l = true
  · rw [if_pos h]
    have hx : x ∈ l := (smem_iff x l).1 h
    constructor
    · exact Or.inl
    · rintro (h1 | h1)
      · exact h1
      · exact h1 ▸ hx
  · rw [if_neg h]
    simp [List.mem_append]

theorem redo_fold_appends (cfg : Config) (u : String) :
    ∀ (batch : List LabelRecord) (s : State) (n : Nat),
      (∀ r ∈ batch, r.id ∉ s.labeled_ids) →
      List.Pairwise (fun a b => a.id ≠ b.id) batch →
      (batch.foldl (redoStep cfg u) (s, n)).1.ledger = s.ledger ++ batch ∧
      (batch.foldl (redoStep cfg u) (s, n)).2 = n + batch.length := by
  intro batch
  induction batch with
  | nil =>
    intro s n _ _
    constructor <;> simp
  | cons r rest ih =>
    intro s n hnot hpair
    have hrnot : r.id ∉ s.labeled_ids := hnot r (List.mem_cons_self r rest)
    have hsm : smem r.id s.labeled_ids = false := (smem_eq_false _ _).2 hrnot
    have hstep : redoStep cfg u (s, n) r =
        ({ s with ledger := s.ledger ++ [r],
                  per_user_counts :=
                    alset s.per_user_counts u (cget s.per_user_counts u + 1),
                  labeled_ids :=
                    if r.id = "" then s.labeled_ids else sinsert s.labeled_ids r.id },
         n + 1) := by
      unfold redoStep
      simp [hsm]
    have hnot' : ∀ q ∈ rest,
        q.id ∉ (if r.id = "" then s.labeled_ids else sinsert s.labeled_ids r.id) := by
      intro q hq
      have hqs : q.id ∉ s.labeled_ids := hnot q (List.mem_cons_of_mem r hq)
      by_cases hre : r.id = ""
      · rw [if_pos hre]
        exact hqs
      · rw [if_neg hre]
        rw [mem_sinsert_iff]
        rintro (hc | hc)
        · exact hqs hc
        · exact (List.rel_of_pairwise_cons hpair hq) hc.symm
    have hmain := ih
      ({ s with ledger := s.ledger ++ [r],
                per_user_counts :=
                  alset s.per_user_counts u (cget s.per_user_counts u + 1),
                labeled_ids :=
                  if r.id = "" then s.labeled_ids else sinsert s.labeled_ids r.id })
      (n + 1) hnot' hpair.of_cons
    rw [List.foldl_cons, hstep]
    refine ⟨?_, ?_⟩
    · rw [hmain.1]
      simp
    · rw [hmain.2]
      simp only [List.length_cons]
      omega

theorem redoLast_of_batch (cfg : Config) (s : State) (u : String)
    (batch : List LabelRecord)
    (hu : u ≠ "") (hb : (alookup s.last_undo u).getD [] = batch)
    (hne : batch ≠ []) :
    redoLast cfg s u =
      ({ (batch.foldl (redoStep cfg u) (s, 0)).1 with
          last_undo := alset (batch.foldl (redoStep cfg u) (s, 0)).1.last_undo u [],
          balance_sig := none },
       RedoResult.ok, (batch.foldl (redoStep cfg u) (s, 0)).2) := by
  unfold redoLast
  rw [if_neg hu]
  simp only [hb]
  rw [if_neg hne]

/-- C7, counterexample: in single-label mode alice can label the same item
twice (no lease is held, so `record_label` accepts both); undoing both and
immediately redoing restores only one of the two records — the second is
skipped because the first re-append already placed the item back into the
labeled set — so the set of LabelRecords before the undo (which contains
the timestamp-2 record) is not restored, even though no other participant
labeled anything between the two calls. -/
theorem undo_redo_duplicate_not_restored :
    (⟨"v", "alice", "ok", 2⟩ : LabelRecord) ∈
      (recordLabel (recordLabel (loadState ["v"] []) ⟨"v", "alice", "ok"⟩ 1 true).1
        ⟨"v", "alice", "ok"⟩ 2 true).1.ledger ∧
    (⟨"v", "alice", "ok", 2⟩ : LabelRecord) ∉
      (redoLast ⟨180, true⟩
        (undoLast (recordLabel (recordLabel (loadState ["v"] [])
            ⟨"v", "alice", "ok"⟩ 1 true).1 ⟨"v", "alice", "ok"⟩ 2 true).1
          "alice" 2 true).1 "alice").1.ledger := by
  decide

theorem redo_after_undo (cfg : Config) (u : String) (s1 : State)
    (batch : List LabelRecord)
    (hu : u ≠ "")
    (hb : (alookup s1.last_undo u).getD [] = batch)
    (hne : batch ≠ [])
    (hnot : ∀ r ∈ batch, r.id ∉ s1.labeled_ids)
    (hdist : List.Pairwise (fun a b => a.id ≠ b.id) batch) :
    (redoLast cfg s1 u).1.ledger = s1.ledger ++ batch ∧
    (redoLast cfg s1 u).2.1 = RedoResult.ok := by
  have hred := redoLast_of_batch cfg s1 u batch hu hb hne
  have hfold := redo_fold_appends cfg u batch s1 0 hnot hdist
  rw [hred]
  exact ⟨hfold.1, rfl⟩

/-- C7, amended: for every participant with at least one ledger record and
every k ≥ 1, `undo(k)` immediately followed by `redo()` re-appends the
undone batch at the end of the ledger in its original relative order, so
the resulting ledger is a permutation of (restores exactly the multiset of
records of) the pre-undo ledger — provided the undone records carry
pairwise-distinct, nonempty item ids (which holds whenever the single-label
discipline was respected when they were appended). -/
theorem undo_redo_round_trip (cfg : Config) (s : State) (u : String) (k : Nat)
    (hu : u ≠ "") (hk : k ≠ 0)
    (hidx : idxUser u s.ledger ≠ [])
    (hids : ∀ r ∈ (undoSplit u s.ledger k).1, r.id ≠ "")
    (hdist : List.Pairwise (fun a b => a.id ≠ b.id) (undoSplit u s.ledger k).1) :
    (redoLast cfg (undoLast s u k true).1 u).1.ledger =
      (undoLast s u k true).1.ledger ++ (undoSplit u s.ledger k).1 ∧
    List.Perm (redoLast cfg (undoLast s u k true).1 u).1.ledger s.ledger ∧
    (redoLast cfg (undoLast s u k true).1 u).2.1 = RedoResult.ok := by
  have hm : (idxUser u s.ledger).length ≠ 0 := by
    intro h
    exact hidx (List.length_eq_zero.1 h)
  have hblen : (undoSplit u s.ledger k).1.length = min k (idxUser u s.ledger).length := by
    rw [undoSplit_eq_keepFirstK, keepFirstK_fst_length]
    rw [idxUser, idxUserFrom_length] at hm ⊢
    omega
  have hbne : (undoSplit u s.ledger k).1 ≠ [] := by
    intro h
    rw [h] at hblen
    simp at hblen
    omega
  have hmap : undoneIdsOf (undoSplit u s.ledger k).1 =
      (undoSplit u s.ledger k).1.map (fun r => r.id) :=
    undoneIdsOf_eq_map _ hids
  have hidsne : (undoneIdsOf (undoSplit u s.ledger k).1).length ≠ 0 := by
    rw [hmap, List.length_map, hblen]
    omega
  have hundo : undoLast s u k true =
      ({ s with
          ledger := (undoSplit u s.ledger k).2,
          per_user_counts := alset s.per_user_counts u
            (cget s.per_user_counts u - (undoneIdsOf (undoSplit u s.ledger k).1).length),
          labeled_ids :=
            (undoneIdsOf (undoSplit u s.ledger k).1).foldl sremove s.labeled_ids,
          balance_sig := none,
          last_undo := alset s.last_undo u (undoSplit u s.ledger k).1 },
       UndoResult.ok, undoneIdsOf (undoSplit u s.ledger k).1) := by
    unfold undoLast
    rw [if_neg (by push_neg; exact ⟨hu, hk⟩), if_neg hidx]
    simp only [not_true, Bool.not_true]
    rw [if_neg (by simp), if_neg hidsne]
  have hled : (undoLast s u k true).1.ledger = (undoSplit u s.ledger k).2 := by
    rw [hundo]
  have hlu : (undoLast s u k true).1.last_undo =
      alset s.last_undo u (undoSplit u s.ledger k).1 := by
    rw [hundo]
  have hlab : (undoLast s u k true).1.labeled_ids =
      (undoneIdsOf (undoSplit u s.ledger k).1).foldl sremove s.labeled_ids := by
    rw [hundo]
  have hnot : ∀ r ∈ (undoSplit u s.ledger k).1,
      r.id ∉ (undoLast s u k true).1.labeled_ids := by
    intro r hr
    rw [hlab]
    apply not_mem_foldl_sremove_of_mem
    rw [hmap]
    exact List.mem_map_of_mem (fun r => r.id) hr
  have hb : (alookup (undoLast s u k true).1.last_undo u).getD [] =
      (undoSplit u s.ledger k).1 := by
    rw [hlu, alookup_alset_self]
    rfl
  have hra := redo_after_undo cfg u (undoLast s u k true).1
    (undoSplit u s.ledger k).1 hu hb hbne hnot hdist
  have hperm0 : List.Perm s.ledger
      ((undoSplit u s.ledger k).2 ++ (undoSplit u s.ledger k).1) := by
    rw [undoSplit_eq_keepFirstK]
    exact keepFirstK_perm u s.ledger _
  refine ⟨hra.1, ?_, hra.2⟩
  rw [hra.1, hled]
  exact hperm0.symm

theorem undo_redo_round_trip_witness :
    (redoLast ⟨180, true⟩
        (undoLast (loadState ["a", "b"]
          [⟨"a", "alice", "ok", 1⟩, ⟨"b", "alice", "ok", 2⟩]) "alice" 1 true).1
        "alice").1.ledger =
      (undoLast (loadState ["a", "b"]
          [⟨"a", "alice", "ok", 1⟩, ⟨"b", "alice", "ok", 2⟩]) "alice" 1 true).1.ledger ++
        (undoSplit "alice" [⟨"a", "alice", "ok", 1⟩, ⟨"b", "alice", "ok", 2⟩] 1).1 ∧
    List.Perm (redoLast ⟨180, true⟩
        (undoLast (loadState ["a", "b"]
          [⟨"a", "alice", "ok", 1⟩, ⟨"b", "alice", "ok", 2⟩]) "alice" 1 true).1
        "alice").1.ledger
      [⟨"a", "alice", "ok", 1⟩, ⟨"b", "alice", "ok", 2⟩] ∧
    (redoLast ⟨180, true⟩
        (undoLast (loadState ["a", "b"]
          [⟨"a", "alice", "ok", 1⟩, ⟨"b", "alice", "ok", 2⟩]) "alice" 1 true).1
        "alice").2.1 = RedoResult.ok := by
  exact undo_redo_round_trip ⟨180, true⟩
    (loadState ["a", "b"] [⟨"a", "alice", "ok", 1⟩, ⟨"b", "alice", "ok", 2⟩])
    "alice" 1 (by decide) (by decide) (by decide) (by decide) (by decide)

/-! ### Order lemmas for the sorted participant list -/

theorem lexLt_irrefl : ∀ cs : List Char, lexLt cs cs = false := by
  intro cs
  induction cs with
  | nil => rfl
  | cons c rest ih => simp [lexLt, ih]

theorem strLt_ne {a b : String} (h : strLt a b = true) : a ≠ b := by
  intro he
  subst he
  rw [strLt, lexLt_irrefl] at h
  cases h

theorem lexLt_trans :
    ∀ {a b c : List Char}, lexLt a b = true → lexLt b c = true → lexLt a c = true := by
  intro a
  induction a with
  | nil =>
    intro b c hab hbc
    cases b with
    | nil => simp [lexLt] at hab
    | cons d ds =>
      cases c with
      | nil => simp [lexLt] at hbc
      | cons e es => simp [lexLt]
  | cons x xs ih =>
    intro b c hab hbc
    cases b with
    | nil => simp [lexLt] at hab
    | cons d ds =>
      cases c with
      | nil => simp [lexLt] at hbc
      | cons e es =>
        simp only [lexLt] at hab hbc ⊢
        by_cases h1 : x.toNat < d.toNat
        · by_cases h2 : d.toNat < e.toNat
          · have h5 : x.toNat < e.toNat := by omega
            simp [h5]
          · simp only [if_neg h2] at hbc
            by_cases h3 : e.toNat < d.toNat
            · rw [if_pos h3] at hbc
              cases hbc
            · have h5 : x.toNat < e.toNat := by omega
              simp [h5]
        · simp only [if_neg h1] at hab
          by_cases h4 : d.toNat < x.toNat
          · rw [if_pos h4] at hab
            cases hab
          · simp only [if_neg h4] at hab
            by_cases h2 : d.toNat < e.toNat
            · have h5 : x.toNat < e.toNat := by omega
              simp [h5]
            · simp only [if_neg h2] at hbc
              by_cases h3 : e.toNat < d.toNat
              · rw [if_pos h3] at hbc
                cases hbc
              · rw [if_neg h3] at hbc
                have h5 : ¬ x.toNat < e.toNat := by omega
                have h6 : ¬ e.toNat < x.toNat := by omega
                simp only [if_neg h5, if_neg h6]
                exact ih hab hbc

theorem strLt_trans {a b c : String} (h1 : strLt a b = true) (h2 : strLt b c = true) :
    strLt a c = true :=
  lexLt_trans h1 h2

theorem lexLt_total : ∀ a b : List Char, a = b ∨ lexLt a b = true ∨ lexLt b a = true := by
  intro a
  induction a with
  | nil =>
    intro b
    cases b with
    | nil => exact Or.inl rfl
    | cons d ds =>
      right
      left
      simp [lexLt]
  | cons x xs ih =>
    intro b
    cases b with
    | nil =>
      right
      right
      simp [lexLt]
    | cons d ds =>
      by_cases h1 : x.toNat < d.toNat
      · right
        left
        simp [lexLt, h1]
      · by_cases h2 : d.toNat < x.toNat
        · right
          right
          simp [lexLt, h2]
        · have hxd : x = d := by
            apply Char.ext
            apply UInt32.ext
            have h1' : ¬ x.val.toNat < d.val.toNat := h1
            have h2' : ¬ d.val.toNat < x.val.toNat := h2
            omega
          subst hxd
          rcases ih ds with h | h | h
          · left
            rw [h]
          · right
            left
            simp [lexLt, h]
          · right
            right
            simp [lexLt, h]

theorem strLt_total (a b : String) : a = b ∨ strLt a b = true ∨ strLt b a = true := by
  rcases lexLt_total a.data b.data with h | h | h
  · left
    cases a with
    | mk da =>
      cases b with
      | mk db =>
        simp only at h
        rw [h]
  · right
    left
    exact h
  · right
    right
    exact h

/-! ### sortedDedup produces a duplicate-free list -/

theorem insSorted_mem :
    ∀ (l : List String) (x z : String), z ∈ insSorted x l ↔ z = x ∨ z ∈ l := by
  intro l
  induction l with
  | nil => intro x z; simp [insSorted]
  | cons y ys ih =>
    intro x z
    unfold insSorted
    by_cases h1 : x = y
    · rw [if_pos h1]
      subst h1
      constructor
      · exact Or.inr
      · rintro (h | h)
        · rw [h]
          exact List.mem_cons_self x ys
        · exact h
    · rw [if_neg h1]
      by_cases h2 : strLt x y = true
      · rw [if_pos h2]
        simp [List.mem_cons]
      · rw [if_neg h2]
        simp only [List.mem_cons, ih]
        constructor
        · rintro (h | h | h)
          · exact Or.inr (Or.inl h)
          · exact Or.inl h
          · exact Or.inr (Or.inr h)
        · rintro (h | h | h)
          · exact Or.inr (Or.inl h)
          · exact Or.inl h
          · exact Or.inr (Or.inr h)

theorem insSorted_pairwise :
    ∀ (l : List String) (x : String),
      List.Pairwise (fun a b => strLt a b = true) l →
      List.Pairwise (fun a b => strLt a b = true) (insSorted x l) := by
  intro l
  induction l with
  | nil => intro x _; simp [insSorted]
  | cons y ys ih =>
    intro x h
    have hy : ∀ z ∈ ys, strLt y z = true := fun z hz => List.rel_of_pairwise_cons h hz
    have hys := h.of_cons
    unfold insSorted
    by_cases h1 : x = y
    · rw [if_pos h1]
      exact h
    · rw [if_neg h1]
      by_cases h2 : strLt x y = true
      · rw [if_pos h2]
        apply List.Pairwise.cons
        · intro z hz
          rcases List.mem_cons.1 hz with h3 | h3
          · rw [h3]
            exact h2
          · exact strLt_trans h2 (hy z h3)
        · exact h
      · rw [if_neg h2]
        have hyx : strLt y x = true := by
          rcases strLt_total x y with h3 | h3 | h3
          · exact absurd h3 h1
          · exact absurd h3 h2
          · exact h3
        apply List.Pairwise.cons
        · intro z hz
          rcases (insSorted_mem ys x z).1 hz with h3 | h3
          · rw [h3]
            exact hyx
          · exact hy z h3
        · exact ih x hys

theorem sortedDedup_pairwise (l : List String) :
    List.Pairwise (fun a b => strLt a b = true) (sortedDedup l) := by
  induction l with
  | nil => simp [sortedDedup]
  | cons x xs ih => exact insSorted_pairwise (sortedDedup xs) x ih

theorem participantsOf_nodup (s : State) : (participantsOf s).Nodup := by
  have h := sortedDedup_pairwise (s.active_users ++ s.per_user_counts.map Prod.fst)
  exact h.imp (fun hab => strLt_ne hab)

/-! ### Claim C2: targets, queue and assignment of the balancer -/

theorem alookup_enumFrom_map (g : Nat × String → Nat) :
    ∀ (P : List String) (j i : Nat) (h : i < P.length), P.Nodup →
      alookup ((P.enumFrom j).map (fun iu => (iu.2, g iu))) (P.get ⟨i, h⟩) =
        some (g (j + i, P.get ⟨i, h⟩)) := by
  intro P
  induction P with
  | nil =>
    intro j i h _
    exact absurd h (Nat.not_lt_zero i)
  | cons x xs ih =>
    intro j i h hnd
    cases i with
    | zero =>
      show alookup ((x, g (j, x)) :: (xs.enumFrom (j + 1)).map _) x = _
      simp [alookup]
    | succ i' =>
      have h' : i' < xs.length := by simpa using Nat.lt_of_succ_lt_succ h
      have hxmem : x ∉ xs := (List.nodup_cons.1 hnd).1
      have hkey : x ≠ xs.get ⟨i', h'⟩ := by
        intro he
        exact hxmem (he ▸ List.get_mem xs i' h')
      show alookup ((x, g (j, x)) :: (xs.enumFrom (j + 1)).map _) (xs.get ⟨i', h'⟩) = _
      rw [alookup, if_neg hkey]
      rw [ih (j + 1) i' h' (List.nodup_cons.1 hnd).2]
      have harith : j + 1 + i' = j + (i' + 1) := by omega
      rw [harith]
      rfl

theorem alookup_enum_map (g : Nat × String → Nat) (P : List String) (hnd : P.Nodup)
    (i : Nat) (h : i < P.length) :
    alookup ((P.enum).map (fun iu => (iu.2, g iu))) (P.get ⟨i, h⟩) =
      some (g (i, P.get ⟨i, h⟩)) := by
  have := alookup_enumFrom_map g P 0 i h hnd
  simpa using this

theorem alookup_map_key (g : String → Nat) :
    ∀ (P : List String) (x : String), x ∈ P →
      alookup (P.map (fun u => (u, g u))) x = some (g x) := by
  intro P
  induction P with
  | nil => intro x hx; cases hx
  | cons y ys ih =>
    intro x hx
    by_cases h : y = x
    · subst h
      simp [alookup]
    · rcases List.mem_cons.1 hx with h1 | h1
      · exact absurd h1.symm h
      · rw [List.map_cons, alookup, if_neg h]
        exact ih x h1

theorem enumFrom_succ_flatMap {β : Type} (g : Nat × String → List β) :
    ∀ (P : List String) (j : Nat),
      (P.enumFrom (j + 1)).flatMap g =
        (P.enumFrom j).flatMap (fun iu => g (iu.1 + 1, iu.2)) := by
  intro P
  induction P with
  | nil => intro j; rfl
  | cons x xs ih =>
    intro j
    have h1 : (x :: xs).enumFrom (j + 1) = (j + 1, x) :: xs.enumFrom (j + 2) := rfl
    have h2 : (x :: xs).enumFrom j = (j, x) :: xs.enumFrom (j + 1) := rfl
    rw [h1, h2, List.flatMap_cons, List.flatMap_cons, ih (j + 1)]

theorem enumFrom_succ_map {β : Type} (f : Nat × String → β) :
    ∀ (l : List String) (j : Nat),
      (l.enumFrom (j + 1)).map f = (l.enumFrom j).map (fun kv => f (kv.1 + 1, kv.2)) := by
  intro l
  induction l with
  | nil => intro j; rfl
  | cons x xs ih =>
    intro j
    have h1 : (x :: xs).enumFrom (j + 1) = (j + 1, x) :: xs.enumFrom (j + 2) := rfl
    have h2 : (x :: xs).enumFrom j = (j, x) :: xs.enumFrom (j + 1) := rfl
    rw [h1, h2, List.map_cons, List.map_cons, ih (j + 1)]

theorem flatMap_eq_enum_flatMap {β : Type} (f : String → List β) :
    ∀ (P : List String) (g : Nat × String → List β),
      (∀ (i : Nat) (h : i < P.length), f (P.get ⟨i, h⟩) = g (i, P.get ⟨i, h⟩)) →
      P.flatMap f = (P.enum).flatMap g := by
  intro P
  induction P with
  | nil => intro g _; rfl
  | cons x xs ih =>
    intro g hfg
    have h0 : f x = g (0, x) := hfg 0 (Nat.succ_pos _)
    have htail : ∀ (i : Nat) (h : i < xs.length),
        f (xs.get ⟨i, h⟩) = (fun iu => g (iu.1 + 1, iu.2)) (i, xs.get ⟨i, h⟩) :=
      fun i h => hfg (i + 1) (Nat.succ_lt_succ h)
    have hmain := ih (fun iu => g (iu.1 + 1, iu.2)) htail
    have henum : (x :: xs).enum = (0, x) :: xs.enumFrom 1 := rfl
    have h2 : (xs.enumFrom 1).flatMap g =
        (xs.enum).flatMap (fun iu => g (iu.1 + 1, iu.2)) :=
      enumFrom_succ_flatMap g xs 0
    show f x ++ xs.flatMap f = _
    rw [henum, List.flatMap_cons, h0, h2, hmain]

theorem assignOwnersAux_eq (queue : List String) (hq : queue ≠ []) :
    ∀ (l : List String) (qi : Nat), qi < queue.length →
      assignOwnersAux queue l qi =
        l.enum.map (fun kv => (kv.2, queue.getD ((qi + kv.1) % queue.length) "")) := by
  intro l
  induction l with
  | nil => intro qi _; rfl
  | cons v vs ih =>
    intro qi hqi
    have hlen : 0 < queue.length := List.length_pos.2 hq
    have hqi' : (qi + 1) % queue.length < queue.length := Nat.mod_lt _ hlen
    have hhead : (v, queue.getD qi "") =
        (fun kv => (kv.2, queue.getD ((qi + kv.1) % queue.length) "")) ((0 : Nat), v) := by
      simp [Nat.mod_eq_of_lt hqi]
    have htail : assignOwnersAux queue vs ((qi + 1) % queue.length) =
        (vs.enumFrom 1).map
          (fun kv => (kv.2, queue.getD ((qi + kv.1) % queue.length) "")) := by
      rw [ih ((qi + 1) % queue.length) hqi']
      rw [show vs.enumFrom 1 = vs.enumFrom (0 + 1) from rfl, enumFrom_succ_map]
      apply List.map_congr_left
      intro kv _
      have harith : ((qi + 1) % queue.length + kv.1) % queue.length =
          (qi + (kv.1 + 1)) % queue.length := by
        rw [Nat.mod_add_mod]
        congr 1
        omega
      rw [harith]
    have henum : (v :: vs).enum = (0, v) :: vs.enumFrom 1 := rfl
    show (v, queue.getD qi "") :: assignOwnersAux queue vs ((qi + 1) % queue.length) = _
    rw [henum, List.map_cons, hhead, htail]

theorem rebalance_eq_recompute (s : State)
    (htrig : s.balance_sig ≠ some (curSig s) ∨ missingList s ≠ []) :
    rebalance s = recomputeBalance s := by
  unfold rebalance
  cases hb : s.balance_sig with
  | none => rfl
  | some σ =>
    show (if σ = curSig s ∧ missingList s = [] then s else recomputeBalance s) =
      recomputeBalance s
    rw [if_neg]
    rintro ⟨h1, h2⟩
    rcases htrig with h | h
    · rw [hb, h1] at h
      exact h rfl
    · exact h h2

/-- C2: whenever the balancer recomputes (stale signature or an unlabeled
item without an owner) with a nonempty sorted participant list P and
catalog size total: the targets dict maps the i-th participant to
base + 1 if i < rem else base (base = total div n, rem = total mod n); the
assignment queue repeats each participant max(0, target - labeled_count)
times in sorted participant order; and the ownership map assigns the k-th
unlabeled item (catalog scan order) to queue[k mod len(queue)], while an
empty queue (and likewise an empty unlabeled list) leaves every unlabeled
item unowned. -/
theorem rebalance_targets_queue_assignment (s : State)
    (htrig : s.balance_sig ≠ some (curSig s) ∨ missingList s ≠ [])
    (hP : participantsOf s ≠ []) :
    (∀ (i : Nat) (h : i < (participantsOf s).length),
        alookup (buildTargets (participantsOf s) s.videos.length)
            ((participantsOf s).get ⟨i, h⟩) =
          some (specTarget (participantsOf s).length s.videos.length i)) ∧
    specQueue s =
      ((participantsOf s).enum).flatMap (fun iu =>
        List.replicate
          (specTarget (participantsOf s).length s.videos.length iu.1 -
            cget s.per_user_counts iu.2) iu.2) ∧
    (specQueue s ≠ [] →
      (rebalance s).owner_map =
        (unlabeledOf s).enum.map (fun kv =>
          (kv.2, (specQueue s).getD (kv.1 % (specQueue s).length) ""))) ∧
    (specQueue s = [] → (rebalance s).owner_map = []) := by
  have htgt : ∀ (i : Nat) (h : i < (participantsOf s).length),
      alookup (buildTargets (participantsOf s) s.videos.length)
          ((participantsOf s).get ⟨i, h⟩) =
        some (specTarget (participantsOf s).length s.videos.length i) := by
    intro i h
    exact alookup_enum_map
      (fun iu => s.videos.length / (participantsOf s).length +
        (if iu.1 < s.videos.length % (participantsOf s).length then 1 else 0))
      (participantsOf s) (participantsOf_nodup s) i h
  have hqueue : specQueue s =
      ((participantsOf s).enum).flatMap (fun iu =>
        List.replicate
          (specTarget (participantsOf s).length s.videos.length iu.1 -
            cget s.per_user_counts iu.2) iu.2) := by
    apply flatMap_eq_enum_flatMap
    intro i h
    have hneed : alookup
        (buildNeed (participantsOf s)
          (buildTargets (participantsOf s) s.videos.length) s.per_user_counts)
        ((participantsOf s).get ⟨i, h⟩) =
      some ((alookup (buildTargets (participantsOf s) s.videos.length)
          ((participantsOf s).get ⟨i, h⟩)).getD 0 -
        cget s.per_user_counts ((participantsOf s).get ⟨i, h⟩)) :=
      alookup_map_key _ (participantsOf s) _ (List.get_mem (participantsOf s) i h)
    rw [htgt i h] at hneed
    show List.replicate _ _ = _
    rw [hneed]
    rfl
  refine ⟨htgt, hqueue, ?_, ?_⟩
  · intro hq
    rw [rebalance_eq_recompute s htrig]
    by_cases hunl : unlabeledOf s = []
    · have : (recomputeBalance s).owner_map = [] := by
        unfold recomputeBalance
        rw [if_neg hP, if_pos hunl]
      rw [this, hunl]
      rfl
    · have hrw : (recomputeBalance s).owner_map =
          assignOwners (specQueue s) (unlabeledOf s) := by
        unfold recomputeBalance
        rw [if_neg hP, if_neg hunl]
        rw [if_neg (by exact hq)]
        rfl
      rw [hrw]
      unfold assignOwners
      have hlen : 0 < (specQueue s).length := List.length_pos.2 hq
      rw [assignOwnersAux_eq (specQueue s) hq (unlabeledOf s) 0 hlen]
      apply List.map_congr_left
      intro kv _
      rw [Nat.zero_add]
  · intro hq
    rw [rebalance_eq_recompute s htrig]
    by_cases hunl : unlabeledOf s = []
    · unfold recomputeBalance
      rw [if_neg hP, if_pos hunl]
    · unfold recomputeBalance
      rw [if_neg hP, if_neg hunl, if_pos (by exact hq)]

theorem rebalance_targets_queue_assignment_witness :
    specQueue sW = ["alice", "alice", "bob"] ∧
    (rebalance sW).owner_map = [("a", "alice"), ("b", "alice"), ("c", "bob")] ∧
    alookup (buildTargets (participantsOf sW) 3) "alice" = some 2 := by
  have h := rebalance_targets_queue_assignment sW (Or.inl (by decide)) (by decide)
  refine ⟨(h.2.1).trans (by decide), ?_, ?_⟩
  · exact (h.2.2.1 (by decide)).trans (by decide)
  · exact (h.1 0 (by decide)).trans (by decide)

/-! ### Claim C8: the ownership map and the labeled set -/

theorem inv_of_same {s t : State} (hl : t.labeled_ids = s.labeled_ids)
    (ho : t.owner_map = s.owner_map) (hb : t.balance_sig = s.balance_sig)
    (h : BalancerInv s) : BalancerInv t := by
  unfold BalancerInv sigLe sigLt ownerOK at h ⊢
  rw [hl, ho, hb]
  exact h

theorem inv_of_sig_none {s : State} (h : s.balance_sig = none) : BalancerInv s := by
  refine ⟨?_, Or.inr ?_⟩
  · intro σ hσ
    rw [h] at hσ
    cases hσ
  · intro σ hσ
    rw [h] at hσ
    cases hσ

theorem assignOwnersAux_fst_mem (queue : List String) :
    ∀ (l : List String) (qi : Nat), ∀ p ∈ assignOwnersAux queue l qi, p.1 ∈ l := by
  intro l
  induction l with
  | nil => intro qi p hp; cases hp
  | cons v vs ih =>
    intro qi p hp
    rcases List.mem_cons.1 hp with h | h
    · rw [h]
      exact List.mem_cons_self v vs
    · exact List.mem_cons_of_mem v (ih _ p h)

theorem recompute_labeled (s : State) :
    (recomputeBalance s).labeled_ids = s.labeled_ids := by
  unfold recomputeBalance
  by_cases h1 : participantsOf s = []
  · rw [if_pos h1]
  · rw [if_neg h1]
    by_cases h2 : unlabeledOf s = []
    · rw [if_pos h2]
    · rw [if_neg h2]
      by_cases h3 : specQueue s = []
      · rw [if_pos (by exact h3)]
      · rw [if_neg (by exact h3)]

theorem recompute_sig (s : State) :
    (recomputeBalance s).balance_sig = some (curSig s) := by
  unfold recomputeBalance
  by_cases h1 : participantsOf s = []
  · rw [if_pos h1]
  · rw [if_neg h1]
    by_cases h2 : unlabeledOf s = []
    · rw [if_pos h2]
    · rw [if_neg h2]
      by_cases h3 : specQueue s = []
      · rw [if_pos (by exact h3)]
      · rw [if_neg (by exact h3)]

theorem recompute_owner (s : State) :
    (recomputeBalance s).owner_map = [] ∨
    (recomputeBalance s).owner_map = assignOwners (specQueue s) (unlabeledOf s) := by
  unfold recomputeBalance
  by_cases h1 : participantsOf s = []
  · rw [if_pos h1]
    exact Or.inl rfl
  · rw [if_neg h1]
    by_cases h2 : unlabeledOf s = []
    · rw [if_pos h2]
      exact Or.inl rfl
    · rw [if_neg h2]
      by_cases h3 : specQueue s = []
      · rw [if_pos (by exact h3)]
        exact Or.inl rfl
      · rw [if_neg (by exact h3)]
        exact Or.inr rfl

theorem ownerOK_recompute (s : State) : ownerOK (recomputeBalance s) := by
  intro p hp
  rw [recompute_labeled]
  rcases recompute_owner s with h | h
  · rw [h] at hp
    cases hp
  · rw [h] at hp
    have hmem : p.1 ∈ unlabeledOf s := assignOwnersAux_fst_mem (specQueue s) _ 0 p hp
    have := List.mem_filter.1 hmem
    intro hc
    rw [(smem_iff p.1 s.labeled_ids).2 hc] at this
    simp at this

theorem inv_recompute (s : State) : BalancerInv (recomputeBalance s) := by
  refine ⟨?_, Or.inl (ownerOK_recompute s)⟩
  intro σ hσ
  rw [recompute_sig] at hσ
  cases hσ
  rw [recompute_labeled]
  exact le_refl _

theorem inv_rebalance {s : State} (h : BalancerInv s) :
    BalancerInv (rebalance s) ∧ ownerOK (rebalance s) := by
  unfold rebalance
  cases hb : s.balance_sig with
  | none => exact ⟨inv_recompute s, ownerOK_recompute s⟩
  | some σ =>
    show BalancerInv (if σ = curSig s ∧ missingList s = [] then s else recomputeBalance s) ∧
      ownerOK (if σ = curSig s ∧ missingList s = [] then s else recomputeBalance s)
    by_cases hc : σ = curSig s ∧ missingList s = []
    · rw [if_pos hc]
      have hown : ownerOK s := by
        rcases h.2 with h2 | h2
        · exact h2
        · have := h2 σ hb
          rw [hc.1] at this
          have h3 : (curSig s).2.2 = s.labeled_ids.length := rfl
          rw [h3] at this
          exact absurd this (lt_irrefl _)
      exact ⟨h, hown⟩
    · rw [if_neg hc]
      exact ⟨inv_recompute s, ownerOK_recompute s⟩

theorem inv_sinsert_state (s : State) (x : String) (led : List LabelRecord)
    (cnt : List (String × Nat)) (asg : List (String × Lease))
    (h : BalancerInv s) :
    BalancerInv { s with ledger := led, per_user_counts := cnt,
                         labeled_ids := sinsert s.labeled_ids x, assigned := asg } := by
  by_cases hmem : smem x s.labeled_ids = true
  · have heq : sinsert s.labeled_ids x = s.labeled_ids := by
      unfold sinsert
      rw [if_pos hmem]
    rw [heq]
    exact inv_of_same rfl rfl rfl h
  · have hlen : (sinsert s.labeled_ids x).length = s.labeled_ids.length + 1 := by
      unfold sinsert
      rw [if_neg hmem]
      simp
    constructor
    · intro σ hσ
      have := h.1 σ hσ
      show σ.2.2 ≤ (sinsert s.labeled_ids x).length
      rw [hlen]
      omega
    · right
      intro σ hσ
      have := h.1 σ hσ
      show σ.2.2 < (sinsert s.labeled_ids x).length
      rw [hlen]
      omega

theorem inv_pruneAssignments (cfg : Config) (now : Nat) {s : State}
    (h : BalancerInv s) : BalancerInv (pruneAssignments cfg now s) :=
  inv_of_same rfl rfl rfl h

theorem inv_assignNext (cfg : Config) (now : Nat) {s : State} (u : String)
    (h : BalancerInv s) : BalancerInv (assignNext cfg now s u).1 := by
  have h1 : BalancerInv { s with active_users := sinsert s.active_users u } :=
    inv_of_same rfl rfl rfl h
  have h2 := (inv_rebalance h1).1
  have h3 := inv_pruneAssignments cfg now h2
  unfold assignNext
  dsimp only
  split
  · exact h3
  · split
    · exact h3
    · exact inv_of_same rfl rfl rfl h3

theorem inv_peekNext (cfg : Config) (now : Nat) {s : State}
    (h : BalancerInv s) : BalancerInv (peekNext cfg now s).1 :=
  inv_pruneAssignments cfg now h

theorem inv_peekNextForUser (cfg : Config) (now : Nat) {s : State} (u : String)
    (h : BalancerInv s) : BalancerInv (peekNextForUser cfg now s u).1 := by
  have h1 : BalancerInv { s with active_users := sinsert s.active_users u } :=
    inv_of_same rfl rfl rfl h
  exact inv_pruneAssignments cfg now (inv_rebalance h1).1

theorem inv_release {s : State} (v : String) (u : Option String)
    (h : BalancerInv s) : BalancerInv (release s v u) := by
  unfold release
  split
  · split
    · exact inv_of_same rfl rfl rfl h
    · exact h
  · exact h

theorem inv_recordLabel {s : State} (p : Payload) (now : Nat) (w : Bool)
    (h : BalancerInv s) : BalancerInv (recordLabel s p now w).1 := by
  unfold recordLabel
  dsimp only
  split
  · exact h
  · split
    · split
      · exact h
      · split
        · exact h
        · exact inv_sinsert_state s p.id _ _ _ h
    · split
      · exact h
      · exact inv_sinsert_state s p.id _ _ _ h

theorem inv_removeLabel {s : State} (u v : String) (w : Bool)
    (h : BalancerInv s) : BalancerInv (removeLabel s u v w).1 := by
  unfold removeLabel
  dsimp only
  split
  · exact h
  · split
    · exact h
    · split
      · exact h
      · exact inv_of_sig_none rfl

theorem inv_undoLast {s : State} (u : String) (c : Nat) (w : Bool)
    (h : BalancerInv s) : BalancerInv (undoLast s u c w).1 := by
  unfold undoLast
  dsimp only
  split
  · exact h
  · split
    · exact h
    · split
      · exact h
      · split
        · exact inv_of_same rfl rfl rfl h
        · exact inv_of_sig_none rfl

theorem inv_redoLast (cfg : Config) {s : State} (u : String)
    (h : BalancerInv s) : BalancerInv (redoLast cfg s u).1 := by
  unfold redoLast
  dsimp only
  split
  · exact h
  · split
    · exact h
    · exact inv_of_sig_none rfl

theorem inv_userStatsTouch {s : State} (u : String)
    (h : BalancerInv s) : BalancerInv (userStatsTouch s u) := by
  unfold userStatsTouch
  split
  · exact h
  · have h1 : BalancerInv { s with active_users := sinsert s.active_users u } :=
      inv_of_same rfl rfl rfl h
    exact (inv_rebalance h1).1

theorem inv_loadState (catalog : List String) (ledger : List LabelRecord) :
    BalancerInv (loadState catalog ledger) :=
  inv_of_sig_none rfl

theorem reachable_inv {cfg : Config} {catalog : List String} {s : State}
    (hr : Reachable cfg catalog s) : BalancerInv s := by
  induction hr with
  | init ledger => exact inv_loadState catalog ledger
  | assign s now u _ ih => exact inv_assignNext cfg now u ih
  | peek s now _ ih => exact inv_peekNext cfg now ih
  | peekUser s now u _ ih => exact inv_peekNextForUser cfg now u ih
  | rel s v u _ ih => exact inv_release v u ih
  | record s p now w _ ih => exact inv_recordLabel p now w ih
  | remove s u v w _ ih => exact inv_removeLabel u v w ih
  | undo s u c w _ ih => exact inv_undoLast u c w ih
  | redo s u _ ih => exact inv_redoLast cfg u ih
  | stats s u _ ih => exact inv_userStatsTouch u ih

/-- C8, counterexample: a reachable state in which the ownership map still
contains an item that has entered the labeled set.  After alice is assigned
the sole item "a" and labels it, `record_label` adds "a" to `labeled_ids`
but does not touch `owner_map`, so the stale entry ("a", "alice") remains
until the next rebalance. -/
theorem owner_map_contains_labeled_item :
    Reachable ⟨180, true⟩ ["a"]
      (recordLabel (assignNext ⟨180, true⟩ 0 (loadState ["a"] []) "alice").1
        ⟨"a", "alice", "ok"⟩ 1 true).1 ∧
    ("a", "alice") ∈
      (recordLabel (assignNext ⟨180, true⟩ 0 (loadState ["a"] []) "alice").1
        ⟨"a", "alice", "ok"⟩ 1 true).1.owner_map ∧
    "a" ∈
      (recordLabel (assignNext ⟨180, true⟩ 0 (loadState ["a"] []) "alice").1
        ⟨"a", "alice", "ok"⟩ 1 true).1.labeled_ids := by
  refine ⟨?_, by decide, by decide⟩
  exact Reachable.record _ ⟨"a", "alice", "ok"⟩ 1 true
    (Reachable.assign _ 0 "alice" (Reachable.init []))

/-- C8, amended: labeling an item does not eagerly remove it from the
ownership map; instead, in every reachable state either the ownership map
contains only unlabeled items or the balancer signature is stale (so the
next rebalance discards the map), and consequently immediately after any
rebalance — which every reader of the ownership map performs first — the
ownership map contains only currently-unlabeled items. -/
theorem reachable_owner_map_invariant (cfg : Config) (catalog : List String)
    (s : State) (hr : Reachable cfg catalog s) :
    BalancerInv s ∧ ownerOK (rebalance s) :=
  ⟨reachable_inv hr, (inv_rebalance (reachable_inv hr)).2⟩

theorem reachable_owner_map_invariant_witness :
    BalancerInv (recordLabel (assignNext ⟨180, true⟩ 0 (loadState ["a"] []) "alice").1
      ⟨"a", "alice", "ok"⟩ 1 true).1 ∧
    ownerOK (rebalance
      (recordLabel (assignNext ⟨180, true⟩ 0 (loadState ["a"] []) "alice").1
        ⟨"a", "alice", "ok"⟩ 1 true).1) := by
  exact reachable_owner_map_invariant ⟨180, true⟩ ["a"] _
    (Reachable.record _ ⟨"a", "alice", "ok"⟩ 1 true
      (Reachable.assign _ 0 "alice" (Reachable.init [])))
